import Mathlib

/-!
# Least-squares estimation of a 2D affine transformation (`lsate.cpp`)

A shallow embedding of the class `LeastSquare2DAffineTransformationEstimator`
of `src/lsate.cpp` over an arbitrary field `K` with decidable equality (exact
arithmetic: the rationals, the reals), followed by theorems about it.

* `cv::Mat` of `r` rows and `c` columns is `Mat K r c`, a Mathlib matrix.
* a thrown `int` is the error of `Except Int`.
* `std::vector<point2D_t>` is `List (Point2D K)`; the loops
  `for ( size_t i = 0; i < m; i++ )` are left folds over the indices
  `List.finRange m`, reading `Q_set[i]` and `P_set[i]`.
* `main` instantiates the class with `cv::Point2f`, whose coordinates are binary32
  numbers: the definitions with the suffix `_f32` are the accumulations of the
  source with every product and every sum rounded to binary32 (`F32`, `fl32`).
-/

namespace LeastSquare2DAffineTransformationEstimator

/-- The point type `point2D_t` (`cv::Point2f` in `main`): a pair of coordinates. -/
structure Point2D (K : Type) where
  x : K
  y : K
deriving DecidableEq

/-- The point type `point3D_t` (`cv::Point3f` in `main`): a triple of coordinates. -/
structure Point3D (K : Type) where
  x : K
  y : K
  z : K
deriving DecidableEq

/-- A `cv::Mat` with `r` rows and `c` columns. -/
abbrev Mat (K : Type) (r c : Nat) := Matrix (Fin r) (Fin c) K

variable {K : Type}

/-- The conversion `cv::Mat( point3D_t )`: a point becomes a 3x1 column. -/
def matOfPoint3D (p : Point3D K) : Mat K 3 1 :=
  Matrix.of fun i _ => ![p.x, p.y, p.z] i

/-- Formula (12): `q_to_q_tilde`, the homogeneous lift `(q.x, q.y, 1)` as a column. -/
def q_to_q_tilde [One K] (q : Point2D K) : Mat K 3 1 :=
  matOfPoint3D ⟨q.x, q.y, 1⟩

/-- Formula (14): `Q_set_to_Q_matrix_tilde`. Starting from `cv::Mat::zeros( 3, 3 )`
the loop adds `q_tilde * q_tilde_transposed` for `i = 0, ..., m - 1`. The arithmetic
is that of the field `K`, exact; `Q_set_to_Q_matrix_tilde_f32` is the same loop in
the rounded arithmetic of `float`. -/
def Q_set_to_Q_matrix_tilde [Field K] (Q_set : List (Point2D K)) : Mat K 3 3 :=
  let m := Q_set.length
  (List.finRange m).foldl
    (fun Q_matrix_tilde i =>
      let q_tilde := q_to_q_tilde (Q_set.get i)
      let q_tilde_transposed := q_tilde.transpose
      Q_matrix_tilde + q_tilde * q_tilde_transposed)
    (0 : Mat K 3 3)

/-- The statement `switch( j ) { case 0: p_ji = P_set[i].x; break; case 1: p_ji = P_set[i].y; break; }`:
the new content of `p_ji`, which is left as it was for every other `j`. -/
def switch_j (j : Nat) (p : Point2D K) (p_ji : K) : K :=
  match j with
  | 0 => p.x
  | 1 => p.y
  | _ => p_ji

/-- One of the three accumulation loops of `c_j_tilde`: the state is the pair
(`p_ji`, accumulator), `w i` is the factor (`Q_set[i].x`, `Q_set[i].y` or `1`)
that multiplies `p_ji`, and `p i` is `P_set[i]`. The arithmetic is that of the
field `K`, exact; `c_j_loop_f32` is the same loop in the rounded arithmetic of
`float`. -/
def c_j_loop [Field K] (j m : Nat) (w : Fin m → K) (p : Fin m → Point2D K)
    (p_ji : K) : K × K :=
  (List.finRange m).foldl
    (fun s i =>
      let p_ji := switch_j j (p i) s.1
      (p_ji, s.2 + w i * p_ji))
    (p_ji, 0)

/-- Formula (16): `c_j_tilde`. The local `p_ji` is declared without an initial
value in the source; its indeterminate initial content is the argument `p_ji`
here (it is read only when `j = 2`, the one index that passes the test `j > 2`
and matches no `case`). -/
def c_j_tilde [Field K] (p_ji : K) (j : Nat) (Q_set P_set : List (Point2D K)) :
    Except Int (Mat K 3 1) :=
  if h : Q_set.length ≠ P_set.length then
    throw 0
  else if j > 2 then
    throw 1
  else
    let m := Q_set.length
    let P_at : Fin m → Point2D K := fun i => P_set.get (i.cast (not_not.mp h))
    let s0 := c_j_loop j m (fun i => (Q_set.get i).x) P_at p_ji
    let c_j0 := s0.2
    let s1 := c_j_loop j m (fun i => (Q_set.get i).y) P_at s0.1
    let c_j1 := s1.2
    let s2 := c_j_loop j m (fun _ => 1) P_at s1.1
    let c_j2 := s2.2
    pure (matOfPoint3D ⟨c_j0, c_j1, c_j2⟩)

/-- Modelled from the spec: the determinant of a 3x3 matrix, as used by the
matrix inversion of the external matrix facility (OpenCV, not part of this
repository). -/
def det3 [Field K] (S : Mat K 3 3) : K :=
  S 0 0 * (S 1 1 * S 2 2 - S 1 2 * S 2 1)
    - S 0 1 * (S 1 0 * S 2 2 - S 1 2 * S 2 0)
    + S 0 2 * (S 1 0 * S 2 1 - S 1 1 * S 2 0)

/-- Modelled from the spec: the matrix inversion of the external matrix facility,
the call `Q_tilde.inv()` (`cv::Mat::inv` of OpenCV, not part of this repository),
on a 3x3 matrix in exact arithmetic. With `d = det3 S`: if `d != 0` the entries
are the cofactors multiplied by `1/d`; a singular matrix raises no exception, the
library reports it through a return value and the result is taken to be zero. -/
def inv [Field K] [DecidableEq K] (S : Mat K 3 3) : Mat K 3 3 :=
  if det3 S ≠ 0 then
    let d := 1 / det3 S
    Matrix.of ![
      ![(S 1 1 * S 2 2 - S 1 2 * S 2 1) * d,
        (S 0 2 * S 2 1 - S 0 1 * S 2 2) * d,
        (S 0 1 * S 1 2 - S 0 2 * S 1 1) * d],
      ![(S 1 2 * S 2 0 - S 1 0 * S 2 2) * d,
        (S 0 0 * S 2 2 - S 0 2 * S 2 0) * d,
        (S 0 2 * S 1 0 - S 0 0 * S 1 2) * d],
      ![(S 1 0 * S 2 1 - S 1 1 * S 2 0) * d,
        (S 0 1 * S 2 0 - S 0 0 * S 2 1) * d,
        (S 0 0 * S 1 1 - S 0 1 * S 1 0) * d]]
  else
    0

/-- The statement `cv::Mat(a).copyTo(t.col(c))`: column `c` of `t` becomes `a`. -/
def copyToCol (a : Mat K 3 1) (c : Fin 2) (t : Mat K 3 2) : Mat K 3 2 :=
  Matrix.of fun i k => if k = c then a i 0 else t i k

/-- Formula (17): `estimate`. Both calls of `c_j_tilde` use `j = 0` and `j = 1`,
for which `p_ji` is assigned before it is read (`c_j_tilde_p_ji_irrelevant`), so
the indeterminate initial content of `p_ji` is fixed to `0` here. -/
def estimate [Field K] [DecidableEq K] (P Q : List (Point2D K)) :
    Except Int (Mat K 2 3) := do
  let Q_tilde := Q_set_to_Q_matrix_tilde P
  let c_tilde_0 ← c_j_tilde 0 0 P Q
  let c_tilde_1 ← c_j_tilde 0 1 P Q
  let Q_tilde_inv := inv Q_tilde
  let a_tilde_0 := Q_tilde_inv * c_tilde_0
  let a_tilde_1 := Q_tilde_inv * c_tilde_1
  let t : Mat K 3 2 := 0
  let t := copyToCol a_tilde_0 0 t
  let t := copyToCol a_tilde_1 1 t
  let t := t.transpose
  return t

/-! ## The instantiation of `main`: binary32 coordinates -/

/-- A binary32 datum, the `float` that `point2D_t::value_type` is for the
`cv::Point2f` of `main`: `some q` is the finite value `q`, `none` stands for an
infinity or a NaN. The two signed zeros are not distinguished. -/
abbrev F32 := Option ℚ

/-- Rounding of a rational to the nearest integer, ties to the even one. -/
def roundNearestEven (y : ℚ) : ℤ :=
  let f := ⌊y⌋
  if y - f < 1 / 2 then f
  else if 1 / 2 < y - f then f + 1
  else if f % 2 = 0 then f
  else f + 1

/-- The binary32 result of an operation whose exact value is `x`: round to nearest,
ties to even, with a 24-bit significand, the exponent being at least `-126`
(below, the spacing is that of the subnormals, `2 ^ (-149)`); a rounded magnitude
of `2 ^ 128` or more is an overflow. -/
def fl32 (x : ℚ) : F32 :=
  if x = 0 then some 0
  else
    let e := max (Int.log 2 |x|) (-126)
    let ulp : ℚ := 2 ^ (e - 23)
    let r : ℚ := roundNearestEven (x / ulp) * ulp
    if |r| < 2 ^ 128 then some r else none

/-- The binary32 sum `a + b`; an operand that is not finite gives a result that is
not finite. -/
def fadd (a b : F32) : F32 :=
  match a, b with
  | some x, some y => fl32 (x + y)
  | _, _ => none

/-- The binary32 product `a * b`; an operand that is not finite gives a result that
is not finite. -/
def fmul (a b : F32) : F32 :=
  match a, b with
  | some x, some y => fl32 (x * y)
  | _, _ => none

/-- The function `q_to_q_tilde` for `float` coordinates: the column `(q.x, q.y, 1)`. -/
def q_to_q_tilde_f32 (q : Point2D F32) : Mat F32 3 1 :=
  matOfPoint3D ⟨q.x, q.y, some 1⟩

/-- The product `q_tilde * q_tilde_transposed` of a 3x1 by a 1x3 matrix of `float`:
every entry is one product, rounded to binary32. -/
def mul_f32 (a : Mat F32 3 1) (b : Mat F32 1 3) : Mat F32 3 3 :=
  Matrix.of fun r c => fmul (a r 0) (b 0 c)

/-- The entrywise sum of the statement `Q_matrix_tilde += ...` for matrices of `float`. -/
def add_f32 (a b : Mat F32 3 3) : Mat F32 3 3 :=
  Matrix.of fun r c => fadd (a r c) (b r c)

/-- The function `Q_set_to_Q_matrix_tilde` for `float` coordinates, as `main`
instantiates it: the same loop as `Q_set_to_Q_matrix_tilde`, every product and
every sum rounded to binary32. -/
def Q_set_to_Q_matrix_tilde_f32 (Q_set : List (Point2D F32)) : Mat F32 3 3 :=
  let m := Q_set.length
  (List.finRange m).foldl
    (fun Q_matrix_tilde i =>
      let q_tilde := q_to_q_tilde_f32 (Q_set.get i)
      let q_tilde_transposed := q_tilde.transpose
      add_f32 Q_matrix_tilde (mul_f32 q_tilde q_tilde_transposed))
    (Matrix.of fun _ _ => some 0)

/-- One accumulation loop of `c_j_tilde` for `float` coordinates: as `c_j_loop`,
with the product and the sum of `c += w * p_ji` rounded to binary32. -/
def c_j_loop_f32 (j m : Nat) (w : Fin m → F32) (p : Fin m → Point2D F32)
    (p_ji : F32) : F32 × F32 :=
  (List.finRange m).foldl
    (fun s i =>
      let p_ji := switch_j j (p i) s.1
      (p_ji, fadd s.2 (fmul (w i) p_ji)))
    (p_ji, some 0)

/-- The function `c_j_tilde` for `float` coordinates, as `main` instantiates it:
the same guards and loops as `c_j_tilde`, in binary32 arithmetic. -/
def c_j_tilde_f32 (p_ji : F32) (j : Nat) (Q_set P_set : List (Point2D F32)) :
    Except Int (Mat F32 3 1) :=
  if h : Q_set.length ≠ P_set.length then
    throw 0
  else if j > 2 then
    throw 1
  else
    let m := Q_set.length
    let P_at : Fin m → Point2D F32 := fun i => P_set.get (i.cast (not_not.mp h))
    let s0 := c_j_loop_f32 j m (fun i => (Q_set.get i).x) P_at p_ji
    let c_j0 := s0.2
    let s1 := c_j_loop_f32 j m (fun i => (Q_set.get i).y) P_at s0.1
    let c_j1 := s1.2
    let s2 := c_j_loop_f32 j m (fun _ => some 1) P_at s1.1
    let c_j2 := s2.2
    pure (matOfPoint3D ⟨c_j0, c_j1, c_j2⟩)

/-! ## Vocabulary of the properties -/

/-- The homogeneous triple `(p.x, p.y, 1)` of a point as a vector. -/
def lift [One K] (p : Point2D K) : Fin 3 → K := ![p.x, p.y, 1]

/-- The coordinate `p[j]`: `p.x` for `j = 0` and `p.y` for `j = 1`. -/
def coord (j : Fin 2) (p : Point2D K) : K := ![p.x, p.y] j

/-- The right-hand side of the normal equations for output coordinate `j`. -/
def rhs [Field K] (j : Fin 2) (P Q : List (Point2D K)) : Fin 3 → K :=
  fun r => (List.zipWith (fun p q => lift p r * coord j q) P Q).sum

/-- Three points are collinear: the cross product of `q - p` and `r - p` vanishes. -/
def collinear [Field K] (p q r : Point2D K) : Prop :=
  (q.x - p.x) * (r.y - p.y) - (q.y - p.y) * (r.x - p.x) = 0

instance [Field K] [DecidableEq K] (p q r : Point2D K) : Decidable (collinear p q r) := by
  unfold collinear; infer_instance

/-- A point sequence is nondegenerate when it contains three points that are not collinear. -/
def Nondegenerate [Field K] (S : List (Point2D K)) : Prop :=
  ∃ p ∈ S, ∃ q ∈ S, ∃ r ∈ S, ¬ collinear p q r

instance [Field K] [DecidableEq K] (S : List (Point2D K)) : Decidable (Nondegenerate S) := by
  unfold Nondegenerate; infer_instance

/-- The 2x3 matrix `[A | b]`: linear part in the first two columns, translation in the third. -/
def augment (A : Mat K 2 2) (b : Fin 2 → K) : Mat K 2 3 :=
  Matrix.of fun i k => ![A i 0, A i 1, b i] k

/-- The image `A * p + b` of a point. -/
def affineMap [Field K] (A : Mat K 2 2) (b : Fin 2 → K) (p : Point2D K) : Point2D K :=
  ⟨A 0 0 * p.x + A 0 1 * p.y + b 0, A 1 0 * p.x + A 1 1 * p.y + b 1⟩

/-- The squared distance between two points. -/
def sqDist [Field K] (p q : Point2D K) : K := (p.x - q.x) ^ 2 + (p.y - q.y) ^ 2

/-- The sum over `i` of the squared distance between `A * P_i + b` and `Q_i`. -/
def sqResidual [Field K] (A : Mat K 2 2) (b : Fin 2 → K) (P Q : List (Point2D K)) : K :=
  (List.zipWith (fun p q => sqDist (affineMap A b p) q) P Q).sum

/-- The sequence `S` reordered by the index permutation `s`: entry `i` of the
result is `S[s i]`. -/
def reorder {α : Type} {n : Nat} (S : List α) (h : S.length = n) (s : Equiv.Perm (Fin n)) :
    List α :=
  List.ofFn fun i : Fin n => S.get ((s i).cast h.symm)

/-- The residual `A * p + b - q` of a pair of corresponding points. -/
def residual [Field K] (A : Mat K 2 2) (b : Fin 2 → K) (p q : Point2D K) : Point2D K :=
  ⟨(affineMap A b p).x - q.x, (affineMap A b p).y - q.y⟩

/-- The centroid of a point sequence: the mean of its points. -/
def centroid [Field K] (S : List (Point2D K)) : Point2D K :=
  ⟨(S.map fun s => s.x).sum / (S.length : K), (S.map fun s => s.y).sum / (S.length : K)⟩

/-! ## Auxiliary lemmas -/

theorem foldl_finRange_get {α β : Type} (l : List α) (f : β → α → β) (b : β) :
    (List.finRange l.length).foldl (fun a i => f a (l.get i)) b = l.foldl f b := by
  have h := List.foldl_map l.get f (List.finRange l.length) b
  rw [List.finRange_map_get] at h
  exact h.symm

theorem q_tilde_mul_transpose [Field K] (q : Point2D K) (r c : Fin 3) :
    (q_to_q_tilde q * (q_to_q_tilde q).transpose) r c = lift q r * lift q c := by
  simp [Matrix.mul_apply, q_to_q_tilde, matOfPoint3D, lift]

theorem foldl_outer_apply [Field K] (S : List (Point2D K)) (M0 : Mat K 3 3) (r c : Fin 3) :
    (S.foldl (fun M q => M + q_to_q_tilde q * (q_to_q_tilde q).transpose) M0) r c
      = M0 r c + (S.map (fun p => lift p r * lift p c)).sum := by
  induction S generalizing M0 with
  | nil => simp
  | cons q S ih =>
    rw [List.foldl_cons, ih, Matrix.add_apply, q_tilde_mul_transpose]
    simp [add_assoc]

theorem Q_matrix_tilde_apply [Field K] (S : List (Point2D K)) (r c : Fin 3) :
    Q_set_to_Q_matrix_tilde S r c = (S.map (fun p => lift p r * lift p c)).sum := by
  unfold Q_set_to_Q_matrix_tilde
  have h := foldl_finRange_get S
    (fun (M : Mat K 3 3) q => M + q_to_q_tilde q * (q_to_q_tilde q).transpose) 0
  simp only [] at h ⊢
  rw [h, foldl_outer_apply]
  simp

theorem switch_j_coord (j : Fin 2) (p : Point2D K) (u : K) :
    switch_j j.val p u = coord j p := by
  fin_cases j <;> rfl

theorem c_j_loop_foldl [Field K] (j : Fin 2) (m : Nat) (w : Fin m → K)
    (p : Fin m → Point2D K) (l : List (Fin m)) (u a : K) :
    (l.foldl (fun s i => (switch_j j.val (p i) s.1, s.2 + w i * switch_j j.val (p i) s.1))
        (u, a)).2
      = a + (l.map (fun i => w i * coord j (p i))).sum := by
  induction l generalizing u a with
  | nil => simp
  | cons i l ih =>
    rw [List.foldl_cons, ih]
    simp [switch_j_coord, add_assoc]

theorem c_j_loop_snd [Field K] (j : Fin 2) (m : Nat) (w : Fin m → K)
    (p : Fin m → Point2D K) (u : K) :
    (c_j_loop j.val m w p u).2 = ((List.finRange m).map (fun i => w i * coord j (p i))).sum := by
  unfold c_j_loop
  simp only []
  rw [c_j_loop_foldl]
  simp

theorem map_finRange_get_zipWith {α β γ : Type} (f : α → β → γ) (Q : List α) (P : List β)
    (h : Q.length = P.length) :
    (List.finRange Q.length).map (fun i => f (Q.get i) (P.get (i.cast h)))
      = List.zipWith f Q P := by
  apply List.ext_getElem
  · simp [h]
  · intro n h1 h2
    simp

theorem c_j_tilde_ok [Field K] (u : K) (j : Fin 2) (Q_set P_set : List (Point2D K))
    (h : Q_set.length = P_set.length) :
    c_j_tilde u j.val Q_set P_set = .ok (Matrix.of fun r _ =>
      (List.zipWith (fun q p => lift q r * coord j p) Q_set P_set).sum) := by
  unfold c_j_tilde
  have hj : ¬ (j.val > 2) := by omega
  rw [dif_neg (not_not.mpr h), if_neg hj]
  simp only [c_j_loop_snd]
  have e0 := map_finRange_get_zipWith (fun q p => lift q 0 * coord j p) Q_set P_set h
  have e1 := map_finRange_get_zipWith (fun q p => lift q 1 * coord j p) Q_set P_set h
  have e2 := map_finRange_get_zipWith (fun q p => lift q 2 * coord j p) Q_set P_set h
  simp only [lift, Matrix.cons_val_zero, Matrix.cons_val_one, Matrix.head_cons,
    Matrix.cons_val_two, Matrix.tail_cons] at e0 e1 e2
  rw [e0, e1, e2]
  congr 1
  ext r c
  fin_cases r <;> simp [matOfPoint3D, lift]

theorem estimate_eq [Field K] [DecidableEq K] (P Q : List (Point2D K))
    (h : P.length = Q.length) :
    estimate P Q = .ok (Matrix.of fun j r =>
      Matrix.mulVec (inv (Q_set_to_Q_matrix_tilde P)) (rhs j P Q) r) := by
  have h0 := c_j_tilde_ok (0 : K) (0 : Fin 2) P Q h
  have h1 := c_j_tilde_ok (0 : K) (1 : Fin 2) P Q h
  simp only [Fin.val_zero, Fin.val_one] at h0 h1
  unfold estimate
  rw [h0, h1]
  show Except.ok _ = Except.ok _
  congr 1
  ext j r
  fin_cases j <;>
    simp [copyToCol, Matrix.mul_apply, Matrix.mulVec, Matrix.dotProduct, rhs]

theorem estimate_length_ne [Field K] [DecidableEq K] (P Q : List (Point2D K))
    (h : P.length ≠ Q.length) : estimate P Q = .error 0 := by
  unfold estimate c_j_tilde
  rw [dif_pos h]
  rfl

theorem det3_eq_det [Field K] (S : Mat K 3 3) : det3 S = S.det := by
  rw [Matrix.det_fin_three]; unfold det3; ring

theorem inv_mul_self [Field K] [DecidableEq K] (S : Mat K 3 3) (h : det3 S ≠ 0) :
    inv S * S = 1 := by
  unfold inv
  rw [if_pos h]
  have hd : det3 S * (1 / det3 S) = 1 := by field_simp
  generalize 1 / det3 S = d at hd ⊢
  unfold det3 at hd
  ext i k
  fin_cases i <;> fin_cases k <;>
    simp [Matrix.mul_apply, Fin.sum_univ_three] <;>
    first
    | linear_combination hd
    | ring

theorem self_mul_inv [Field K] [DecidableEq K] (S : Mat K 3 3) (h : det3 S ≠ 0) :
    S * inv S = 1 := by
  unfold inv
  rw [if_pos h]
  have hd : det3 S * (1 / det3 S) = 1 := by field_simp
  generalize 1 / det3 S = d at hd ⊢
  unfold det3 at hd
  ext i k
  fin_cases i <;> fin_cases k <;>
    simp [Matrix.mul_apply, Fin.sum_univ_three] <;>
    first
    | linear_combination hd
    | ring

theorem Q_matrix_tilde_mulVec [Field K] (S : List (Point2D K)) (v : Fin 3 → K) (r : Fin 3) :
    Matrix.mulVec (Q_set_to_Q_matrix_tilde S) v r
      = (S.map (fun p => lift p r * Matrix.dotProduct (lift p) v)).sum := by
  simp only [Matrix.mulVec, Matrix.dotProduct, Fin.sum_univ_three, Q_matrix_tilde_apply]
  induction S with
  | nil => simp
  | cons p S ih =>
    simp only [List.map_cons, List.sum_cons]
    linear_combination ih

theorem Q_matrix_tilde_quadratic [Field K] (S : List (Point2D K)) (v : Fin 3 → K) :
    Matrix.dotProduct v (Matrix.mulVec (Q_set_to_Q_matrix_tilde S) v)
      = (S.map (fun p => (Matrix.dotProduct (lift p) v) ^ 2)).sum := by
  simp only [Matrix.mulVec, Matrix.dotProduct, Fin.sum_univ_three, Q_matrix_tilde_apply]
  induction S with
  | nil => simp
  | cons p S ih =>
    simp only [List.map_cons, List.sum_cons]
    linear_combination ih

theorem sum_sq_nonneg [LinearOrderedField K] {α : Type} (S : List α) (f : α → K) :
    0 ≤ (S.map (fun p => (f p) ^ 2)).sum := by
  apply List.sum_nonneg
  intro x hx
  obtain ⟨p, _, rfl⟩ := List.mem_map.mp hx
  positivity

theorem sum_sq_eq_zero [LinearOrderedField K] {α : Type} (S : List α) (f : α → K)
    (h : (S.map (fun p => (f p) ^ 2)).sum = 0) : ∀ p ∈ S, f p = 0 := by
  induction S with
  | nil => intro p hp; cases hp
  | cons a S ih =>
    simp only [List.map_cons, List.sum_cons] at h
    have h1 : 0 ≤ (f a) ^ 2 := by positivity
    have h2 := sum_sq_nonneg S f
    have h3 : (f a) ^ 2 = 0 := by linarith
    have h4 : (S.map (fun p => (f p) ^ 2)).sum = 0 := by linarith
    intro p hp
    rcases List.mem_cons.mp hp with rfl | hp
    · exact pow_eq_zero_iff (two_ne_zero) |>.mp h3
    · exact ih h4 p hp

/-- A vector orthogonal to the lifts of three non-collinear points is zero. -/
theorem eq_zero_of_dot_lift [Field K] (p q r : Point2D K) (h : ¬ collinear p q r)
    (v : Fin 3 → K) (hp : Matrix.dotProduct (lift p) v = 0)
    (hq : Matrix.dotProduct (lift q) v = 0) (hr : Matrix.dotProduct (lift r) v = 0) :
    v = 0 := by
  simp only [Matrix.dotProduct, Fin.sum_univ_three, lift, Matrix.cons_val_zero,
    Matrix.cons_val_one, Matrix.head_cons, Matrix.cons_val_two, Matrix.tail_cons,
    one_mul] at hp hq hr
  unfold collinear at h
  have h0 : v 0 * ((q.x - p.x) * (r.y - p.y) - (q.y - p.y) * (r.x - p.x)) = 0 := by
    linear_combination (q.y - r.y) * hp + (r.y - p.y) * hq + (p.y - q.y) * hr
  have h1 : v 1 * ((q.x - p.x) * (r.y - p.y) - (q.y - p.y) * (r.x - p.x)) = 0 := by
    linear_combination (r.x - q.x) * hp + (p.x - r.x) * hq + (q.x - p.x) * hr
  have v0 : v 0 = 0 := (mul_eq_zero.mp h0).resolve_right h
  have v1 : v 1 = 0 := (mul_eq_zero.mp h1).resolve_right h
  have v2 : v 2 = 0 := by rw [v0, v1] at hp; simpa using hp
  funext i
  fin_cases i <;> simp [v0, v1, v2]

theorem posDef_of_nondegenerate [LinearOrderedField K] (S : List (Point2D K))
    (h : Nondegenerate S) (v : Fin 3 → K) (hv : v ≠ 0) :
    0 < Matrix.dotProduct v (Matrix.mulVec (Q_set_to_Q_matrix_tilde S) v) := by
  rw [Q_matrix_tilde_quadratic]
  rcases (sum_sq_nonneg S (fun p => Matrix.dotProduct (lift p) v)).lt_or_eq with hlt | heq
  · exact hlt
  · exfalso
    obtain ⟨p, hp, q, hq, r, hr, hc⟩ := h
    have hz := sum_sq_eq_zero S (fun p => Matrix.dotProduct (lift p) v) heq.symm
    exact hv (eq_zero_of_dot_lift p q r hc v (hz p hp) (hz q hq) (hz r hr))

theorem det_ne_zero_of_posDef [LinearOrderedField K] (M : Mat K 3 3)
    (h : ∀ v : Fin 3 → K, v ≠ 0 → 0 < Matrix.dotProduct v (Matrix.mulVec M v)) :
    M.det ≠ 0 := by
  intro hdet
  obtain ⟨v, hv, hMv⟩ := Matrix.exists_mulVec_eq_zero_iff.mpr hdet
  have := h v hv
  rw [hMv] at this
  simp at this

theorem det3_ne_zero_of_nondegenerate [LinearOrderedField K] (S : List (Point2D K))
    (h : Nondegenerate S) : det3 (Q_set_to_Q_matrix_tilde S) ≠ 0 := by
  rw [det3_eq_det]
  exact det_ne_zero_of_posDef _ (posDef_of_nondegenerate S h)

/-- A sequence without three non-collinear points lies on a line `v0 x + v1 y + v2 = 0`. -/
theorem exists_line_of_degenerate [Field K] (S : List (Point2D K))
    (h : ¬ Nondegenerate S) :
    ∃ v : Fin 3 → K, v ≠ 0 ∧ ∀ p ∈ S, Matrix.dotProduct (lift p) v = 0 := by
  classical
  by_cases h2 : ∃ p ∈ S, ∃ q ∈ S, p ≠ q
  · obtain ⟨p, hp, q, hq, hpq⟩ := h2
    refine ⟨![p.y - q.y, q.x - p.x, p.x * q.y - p.y * q.x], ?_, ?_⟩
    · intro hv
      have e0 := congrFun hv 0
      have e1 := congrFun hv 1
      simp at e0 e1
      apply hpq
      cases p; cases q
      simp only [Point2D.mk.injEq]
      simp only at e0 e1
      exact ⟨(sub_eq_zero.mp e1).symm, sub_eq_zero.mp e0⟩
    · intro r hr
      have hc : collinear p q r := by
        by_contra hc
        exact h ⟨p, hp, q, hq, r, hr, hc⟩
      unfold collinear at hc
      simp only [Matrix.dotProduct, Fin.sum_univ_three, lift, Matrix.cons_val_zero,
        Matrix.cons_val_one, Matrix.head_cons, Matrix.cons_val_two, Matrix.tail_cons]
      linear_combination hc
  · have hall : ∀ p ∈ S, ∀ q ∈ S, p = q := by
      intro p hp q hq
      by_contra hne
      exact h2 ⟨p, hp, q, hq, hne⟩
    cases S with
    | nil =>
      refine ⟨![1, 0, 0], ?_, ?_⟩
      · intro hv
        have e0 := congrFun hv 0
        simp at e0
      · intro p hp; cases hp
    | cons a S =>
      refine ⟨![1, 0, -a.x], ?_, ?_⟩
      · intro hv
        have e0 := congrFun hv 0
        simp at e0
      · intro p hp
        have : p = a := hall p hp a (List.mem_cons_self _ _)
        subst this
        simp [Matrix.dotProduct, Fin.sum_univ_three, lift]

theorem det_eq_zero_of_degenerate [Field K] (S : List (Point2D K))
    (h : ¬ Nondegenerate S) : (Q_set_to_Q_matrix_tilde S).det = 0 := by
  obtain ⟨v, hv, hS⟩ := exists_line_of_degenerate S h
  apply Matrix.exists_mulVec_eq_zero_iff.mp
  refine ⟨v, hv, ?_⟩
  funext r
  rw [Q_matrix_tilde_mulVec]
  simp only [Pi.zero_apply]
  apply List.sum_eq_zero
  intro x hx
  obtain ⟨p, hp, rfl⟩ := List.mem_map.mp hx
  rw [hS p hp, mul_zero]

theorem zipWith_left_eq_map {α β γ : Type} (g : α → γ) (P : List α) (Q : List β)
    (h : P.length = Q.length) : List.zipWith (fun p _ => g p) P Q = P.map g := by
  induction P generalizing Q with
  | nil => simp
  | cons p P ih =>
    cases Q with
    | nil => simp at h
    | cons q Q =>
      simp only [List.zipWith_cons_cons, List.map_cons]
      rw [ih Q (by simpa using h)]

theorem sq_expand [Field K] (j : Fin 2) (P Q : List (Point2D K)) (a a' : Fin 3 → K) :
    (List.zipWith (fun p q => (Matrix.dotProduct (lift p) a' - coord j q) ^ 2) P Q).sum
      = (List.zipWith (fun p q => (Matrix.dotProduct (lift p) a - coord j q) ^ 2) P Q).sum
        + (List.zipWith (fun p _ => (Matrix.dotProduct (lift p) (a' - a)) ^ 2) P Q).sum
        + 2 * ∑ r : Fin 3, (a' r - a r) *
            ((List.zipWith (fun p _ => lift p r * Matrix.dotProduct (lift p) a) P Q).sum
              - (List.zipWith (fun p q => lift p r * coord j q) P Q).sum) := by
  induction P generalizing Q with
  | nil => simp
  | cons p P ih =>
    cases Q with
    | nil => simp
    | cons q Q =>
      have h := ih Q
      simp only [List.zipWith_cons_cons, List.sum_cons, Fin.sum_univ_three, Matrix.dotProduct,
        Pi.sub_apply] at h ⊢
      linear_combination h

theorem sum_zipWith_add [Field K] {α β : Type} (f g : α → β → K) (P : List α) (Q : List β) :
    (List.zipWith (fun p q => f p q + g p q) P Q).sum
      = (List.zipWith f P Q).sum + (List.zipWith g P Q).sum := by
  induction P generalizing Q with
  | nil => simp
  | cons p P ih =>
    cases Q with
    | nil => simp
    | cons q Q =>
      simp only [List.zipWith_cons_cons, List.sum_cons, ih Q]
      ring

theorem sqResidual_eq [Field K] (A : Mat K 2 2) (b : Fin 2 → K) (P Q : List (Point2D K)) :
    sqResidual A b P Q
      = (List.zipWith (fun p q =>
            (Matrix.dotProduct (lift p) (augment A b 0) - coord 0 q) ^ 2) P Q).sum
        + (List.zipWith (fun p q =>
            (Matrix.dotProduct (lift p) (augment A b 1) - coord 1 q) ^ 2) P Q).sum := by
  rw [← sum_zipWith_add]
  unfold sqResidual
  congr 1
  congr 1
  funext p q
  simp only [sqDist, affineMap, Matrix.dotProduct, Fin.sum_univ_three, lift, augment, coord,
    Matrix.of_apply, Matrix.cons_val_zero, Matrix.cons_val_one, Matrix.head_cons,
    Matrix.cons_val_two, Matrix.tail_cons]
  ring

theorem rhs_eq_mulVec [Field K] [DecidableEq K] (j : Fin 2) (P Q : List (Point2D K))
    (hlen : P.length = Q.length) (hdet : det3 (Q_set_to_Q_matrix_tilde P) ≠ 0) (r : Fin 3) :
    (List.zipWith (fun p _ => lift p r * Matrix.dotProduct (lift p)
        (Matrix.mulVec (inv (Q_set_to_Q_matrix_tilde P)) (rhs j P Q))) P Q).sum
      = (List.zipWith (fun p q => lift p r * coord j q) P Q).sum := by
  rw [zipWith_left_eq_map _ P Q hlen, ← Q_matrix_tilde_mulVec, Matrix.mulVec_mulVec,
    self_mul_inv _ hdet, Matrix.one_mulVec]
  rfl

theorem row_least_squares [LinearOrderedField K] (j : Fin 2) (P Q : List (Point2D K))
    (hlen : P.length = Q.length) (hP : Nondegenerate P) (a' : Fin 3 → K) :
    (List.zipWith (fun p q => (Matrix.dotProduct (lift p)
        (Matrix.mulVec (inv (Q_set_to_Q_matrix_tilde P)) (rhs j P Q)) - coord j q) ^ 2) P Q).sum
      ≤ (List.zipWith (fun p q => (Matrix.dotProduct (lift p) a' - coord j q) ^ 2) P Q).sum := by
  have hdet := det3_ne_zero_of_nondegenerate P hP
  rw [sq_expand j P Q (Matrix.mulVec (inv (Q_set_to_Q_matrix_tilde P)) (rhs j P Q)) a']
  have hcross : ∀ r : Fin 3, (List.zipWith (fun p _ => lift p r * Matrix.dotProduct (lift p)
        (Matrix.mulVec (inv (Q_set_to_Q_matrix_tilde P)) (rhs j P Q))) P Q).sum
      - (List.zipWith (fun p q => lift p r * coord j q) P Q).sum = 0 := by
    intro r
    rw [rhs_eq_mulVec j P Q hlen hdet r, sub_self]
  simp only [hcross, mul_zero, Finset.sum_const_zero, add_zero]
  rw [zipWith_left_eq_map _ P Q hlen]
  have := sum_sq_nonneg P (fun p => Matrix.dotProduct (lift p)
    (a' - Matrix.mulVec (inv (Q_set_to_Q_matrix_tilde P)) (rhs j P Q)))
  linarith

theorem coord_affineMap [Field K] (A : Mat K 2 2) (b : Fin 2 → K) (j : Fin 2) (p : Point2D K) :
    coord j (affineMap A b p) = Matrix.dotProduct (lift p) (augment A b j) := by
  fin_cases j <;>
    simp [coord, affineMap, Matrix.dotProduct, Fin.sum_univ_three, lift, augment] <;> ring

theorem rhs_affine [Field K] (A : Mat K 2 2) (b : Fin 2 → K) (j : Fin 2)
    (P : List (Point2D K)) :
    rhs j P (P.map (affineMap A b))
      = Matrix.mulVec (Q_set_to_Q_matrix_tilde P) (augment A b j) := by
  funext r
  rw [Q_matrix_tilde_mulVec]
  unfold rhs
  rw [List.zipWith_map_right, List.zipWith_same]
  simp only [coord_affineMap]

/-- Exact affine data is recovered, whether or not the linear part is invertible. -/
theorem estimate_affine_data [LinearOrderedField K] (P : List (Point2D K))
    (hP : Nondegenerate P) (A : Mat K 2 2) (b : Fin 2 → K) :
    estimate P (P.map (affineMap A b)) = .ok (augment A b) := by
  have hdet := det3_ne_zero_of_nondegenerate P hP
  rw [estimate_eq P _ (by simp)]
  congr 1
  ext j r
  simp only [Matrix.of_apply]
  rw [rhs_affine, Matrix.mulVec_mulVec, inv_mul_self _ hdet, Matrix.one_mulVec]

theorem c_j_tilde_p_ji_irrelevant [Field K] (u u' : K) (j : Fin 2)
    (Q_set P_set : List (Point2D K)) :
    c_j_tilde u j.val Q_set P_set = c_j_tilde u' j.val Q_set P_set := by
  by_cases h : Q_set.length = P_set.length
  · rw [c_j_tilde_ok u j _ _ h, c_j_tilde_ok u' j _ _ h]
  · unfold c_j_tilde
    rw [dif_pos h, dif_pos h]

theorem augment_rows (a : Fin 2 → Fin 3 → K) (j : Fin 2) :
    augment (Matrix.of fun i k => a i k.castSucc) (fun i => a i 2) j = a j := by
  funext k
  fin_cases k <;> rfl

theorem not_nondegenerate_of_length_lt [Field K] (S : List (Point2D K)) (h : S.length < 3) :
    ¬ Nondegenerate S := by
  rintro ⟨p, hp, q, hq, r, hr, hc⟩
  apply hc
  unfold collinear
  rcases S with _ | ⟨a, _ | ⟨b, _ | ⟨c, S⟩⟩⟩
  · cases hp
  · simp only [List.mem_singleton] at hp hq hr
    subst hp hq hr
    ring
  · simp only [List.mem_cons, List.mem_singleton, List.not_mem_nil, or_false] at hp hq hr
    rcases hp with rfl | rfl <;> rcases hq with rfl | rfl <;> rcases hr with rfl | rfl <;> ring
  · simp at h
    omega

theorem length_reorder {α : Type} {n : Nat} (S : List α) (h : S.length = n)
    (s : Equiv.Perm (Fin n)) : (reorder S h s).length = n := by
  simp [reorder]

theorem reorder_perm {α : Type} {n : Nat} (S : List α) (h : S.length = n)
    (s : Equiv.Perm (Fin n)) : List.Perm (reorder S h s) S := by
  subst h
  have h1 := s.ofFn_comp_perm (fun i => S.get i)
  rw [List.ofFn_get] at h1
  exact h1

theorem zipWith_ofFn {α β γ : Type} {n : Nat} (f : α → β → γ) (a : Fin n → α)
    (b : Fin n → β) :
    List.zipWith f (List.ofFn a) (List.ofFn b) = List.ofFn (fun i => f (a i) (b i)) := by
  apply List.ext_getElem
  · simp
  · intro i h1 h2
    simp

theorem zipWith_reorder_perm {α β γ : Type} {n : Nat} (f : α → β → γ) (P : List α)
    (Q : List β) (hP : P.length = n) (hQ : Q.length = n) (s : Equiv.Perm (Fin n)) :
    List.Perm (List.zipWith f (reorder P hP s) (reorder Q hQ s)) (List.zipWith f P Q) := by
  subst hP
  unfold reorder
  rw [zipWith_ofFn]
  have h1 := s.ofFn_comp_perm (fun i => f (P.get i) (Q.get (i.cast hQ.symm)))
  rw [List.ofFn_eq_map, List.ofFn_eq_map] at h1
  rw [List.ofFn_eq_map]
  have h2 := map_finRange_get_zipWith f P Q hQ.symm
  rw [h2] at h1
  exact h1

theorem ok_augment_ne {A B : Mat ℚ 2 2} {b c : Fin 2 → ℚ} (h : A 0 0 ≠ B 0 0) :
    (Except.ok (augment A b) : Except Int (Mat ℚ 2 3)) ≠ Except.ok (augment B c) := by
  intro heq
  injection heq with heq
  apply h
  have := congrFun (congrFun heq 0) 0
  simpa [augment] using this

theorem nondegenerate_triangle :
    Nondegenerate ([⟨0, 0⟩, ⟨1, 0⟩, ⟨0, 1⟩] : List (Point2D ℚ)) :=
  ⟨⟨0, 0⟩, by simp, ⟨1, 0⟩, by simp, ⟨0, 1⟩, by simp, by norm_num [collinear]⟩

theorem reorder_triangle :
    reorder ([⟨0, 0⟩, ⟨1, 0⟩, ⟨0, 1⟩] : List (Point2D ℚ)) (Eq.refl 3) (Equiv.swap 0 1)
      = [⟨1, 0⟩, ⟨0, 0⟩, ⟨0, 1⟩] := by
  rfl

/-! ## Auxiliary lemmas on binary32 rounding -/

theorem roundNearestEven_intCast (n : ℤ) : roundNearestEven (n : ℚ) = n := by
  unfold roundNearestEven
  simp

theorem roundNearestEven_half_even (n : ℤ) (h : n % 2 = 0) :
    roundNearestEven ((n : ℚ) + 1 / 2) = n := by
  have hf : ⌊(n : ℚ) + 1 / 2⌋ = n := by
    rw [Int.floor_eq_iff]
    constructor <;> norm_num
  unfold roundNearestEven
  simp only [hf]
  have e : (n : ℚ) + 1 / 2 - n = 1 / 2 := by ring
  rw [e]
  simp [h]

theorem int_log_two_eq (x : ℚ) (e : ℤ) (hx : 0 < x) (h1 : (2 : ℚ) ^ e ≤ x)
    (h2 : x < (2 : ℚ) ^ (e + 1)) : Int.log 2 x = e := by
  have a : e ≤ Int.log 2 x := by
    rw [← Int.zpow_le_iff_le_log (by norm_num) hx]
    exact_mod_cast h1
  have b : Int.log 2 x < e + 1 := by
    rw [← Int.lt_zpow_iff_log_lt (by norm_num) hx]
    exact_mod_cast h2
  omega

/-- The rounding of `y * 2 ^ (e - 23)` for a significand `y` of magnitude in
`[2 ^ 23, 2 ^ 24)` and an exponent `e` of the normal range: the significand is
rounded to an integer. -/
theorem fl32_of_scaled (y : ℚ) (e m : ℤ) (hy1 : 2 ^ 23 ≤ |y|) (hy2 : |y| < 2 ^ 24)
    (he1 : -126 ≤ e) (he2 : e ≤ 127) (hm : roundNearestEven y = m)
    (hm2 : |(m : ℚ)| < 2 ^ 24) :
    fl32 (y * 2 ^ (e - 23)) = some ((m : ℚ) * 2 ^ (e - 23)) := by
  have hu : (0 : ℚ) < 2 ^ (e - 23) := zpow_pos (by norm_num) _
  have hy0 : y ≠ 0 := by
    intro h
    rw [h] at hy1
    norm_num at hy1
  have hx0 : y * 2 ^ (e - 23) ≠ 0 := mul_ne_zero hy0 (ne_of_gt hu)
  have habs : |y * 2 ^ (e - 23)| = |y| * 2 ^ (e - 23) := by
    rw [abs_mul, abs_of_pos hu]
  have p1 : (2 : ℚ) ^ e = 2 ^ 23 * 2 ^ (e - 23) := by
    have : (2 : ℚ) ^ (23 : ℕ) = 2 ^ (23 : ℤ) := by norm_cast
    rw [this, ← zpow_add₀ (by norm_num : (2 : ℚ) ≠ 0)]
    congr 1
    ring
  have p2 : (2 : ℚ) ^ (e + 1) = 2 ^ 24 * 2 ^ (e - 23) := by
    have : (2 : ℚ) ^ (24 : ℕ) = 2 ^ (24 : ℤ) := by norm_cast
    rw [this, ← zpow_add₀ (by norm_num : (2 : ℚ) ≠ 0)]
    congr 1
    ring
  have hlog : Int.log 2 |y * 2 ^ (e - 23)| = e := by
    apply int_log_two_eq _ _ (abs_pos.mpr hx0)
    · rw [habs, p1]
      exact mul_le_mul_of_nonneg_right hy1 hu.le
    · rw [habs, p2]
      exact mul_lt_mul_of_pos_right hy2 hu
  have hdiv : y * 2 ^ (e - 23) / 2 ^ (e - 23) = y := by
    field_simp
  have hsmall : |(m : ℚ) * 2 ^ (e - 23)| < 2 ^ 128 := by
    rw [abs_mul, abs_of_pos hu]
    have hle : (2 : ℚ) ^ (e - 23) ≤ 2 ^ (104 : ℤ) :=
      zpow_le_zpow_right₀ (by norm_num) (by omega)
    have h104 : (2 : ℚ) ^ (104 : ℤ) = 2 ^ (104 : ℕ) := by norm_cast
    calc |(m : ℚ)| * 2 ^ (e - 23) ≤ |(m : ℚ)| * 2 ^ (104 : ℤ) :=
          mul_le_mul_of_nonneg_left hle (abs_nonneg _)
      _ < 2 ^ 24 * 2 ^ (104 : ℤ) := mul_lt_mul_of_pos_right hm2 (zpow_pos (by norm_num) _)
      _ = 2 ^ 128 := by rw [h104]; norm_num
  unfold fl32
  rw [if_neg hx0]
  simp only [hlog, max_eq_left he1, hdiv, hm, if_pos hsmall]

theorem fl32_zero : fl32 0 = some 0 := by
  unfold fl32
  simp

theorem fl32_eval (x r y : ℚ) (e m : ℤ) (hx : x = y * 2 ^ (e - 23))
    (hr : r = (m : ℚ) * 2 ^ (e - 23)) (hy1 : 2 ^ 23 ≤ |y|) (hy2 : |y| < 2 ^ 24)
    (he1 : -126 ≤ e) (he2 : e ≤ 127) (hm : roundNearestEven y = m)
    (hm2 : |(m : ℚ)| < 2 ^ 24) : fl32 x = some r := by
  rw [hx, hr]
  exact fl32_of_scaled y e m hy1 hy2 he1 he2 hm hm2

theorem fl32_one : fl32 1 = some 1 :=
  fl32_eval 1 1 8388608 0 8388608 (by norm_num) (by norm_num) (by norm_num) (by norm_num)
    (by norm_num) (by norm_num) (by exact_mod_cast roundNearestEven_intCast 8388608)
    (by norm_num)

theorem fl32_4097 : fl32 4097 = some 4097 :=
  fl32_eval 4097 4097 8390656 12 8390656 (by norm_num) (by norm_num) (by norm_num)
    (by norm_num) (by norm_num) (by norm_num)
    (by exact_mod_cast roundNearestEven_intCast 8390656) (by norm_num)

theorem fl32_16785409 : fl32 16785409 = some 16785408 :=
  fl32_eval 16785409 16785408 (8392704 + 1 / 2) 24 8392704 (by norm_num) (by norm_num)
    (by rw [abs_of_pos (by norm_num)]; norm_num)
    (by rw [abs_of_pos (by norm_num)]; norm_num) (by norm_num) (by norm_num)
    (by exact_mod_cast roundNearestEven_half_even 8392704 (by decide)) (by norm_num)

theorem fl32_16785408 : fl32 16785408 = some 16785408 :=
  fl32_eval 16785408 16785408 8392704 24 8392704 (by norm_num) (by norm_num) (by norm_num)
    (by norm_num) (by norm_num) (by norm_num)
    (by exact_mod_cast roundNearestEven_intCast 8392704) (by norm_num)

theorem fl32_16777216 : fl32 16777216 = some 16777216 :=
  fl32_eval 16777216 16777216 8388608 24 8388608 (by norm_num) (by norm_num) (by norm_num)
    (by norm_num) (by norm_num) (by norm_num)
    (by exact_mod_cast roundNearestEven_intCast 8388608) (by norm_num)

theorem fl32_16777217 : fl32 16777217 = some 16777216 :=
  fl32_eval 16777217 16777216 (8388608 + 1 / 2) 24 8388608 (by norm_num) (by norm_num)
    (by rw [abs_of_pos (by norm_num)]; norm_num)
    (by rw [abs_of_pos (by norm_num)]; norm_num) (by norm_num) (by norm_num)
    (by exact_mod_cast roundNearestEven_half_even 8388608 (by decide)) (by norm_num)

theorem Q_matrix_tilde_f32_singleton (q : Point2D F32) (r c : Fin 3) :
    Q_set_to_Q_matrix_tilde_f32 [q] r c
      = fadd (some 0) (fmul (q_to_q_tilde_f32 q r 0) (q_to_q_tilde_f32 q c 0)) := by
  rfl

theorem fadd_some (x y : ℚ) : fadd (some x) (some y) = fl32 (x + y) := rfl

theorem fmul_some (x y : ℚ) : fmul (some x) (some y) = fl32 (x * y) := rfl

theorem Q_matrix_tilde_f32_4097 :
    Q_set_to_Q_matrix_tilde_f32 [⟨some 4097, some 0⟩]
      = Matrix.of ![![some 16785408, some 0, some 4097], ![some 0, some 0, some 0],
          ![some 4097, some 0, some 1]] := by
  apply Matrix.ext
  intro r c
  rw [Q_matrix_tilde_f32_singleton]
  fin_cases r <;> fin_cases c <;>
    simp only [q_to_q_tilde_f32, matOfPoint3D, Matrix.of_apply, Matrix.cons_val_zero,
      Matrix.cons_val_one, Matrix.cons_val_two, Matrix.head_cons, Matrix.tail_cons,
      Fin.zero_eta, Fin.mk_one, Fin.reduceFinMk, Fin.isValue, fmul_some, fadd_some] <;>
    norm_num [fadd_some, fmul_some, fl32_zero, fl32_one, fl32_4097, fl32_16785409,
      fl32_16785408]

theorem c_j_tilde_f32_two (u : F32) (j : Nat) (hj : ¬ j > 2) (q0 q1 p0 p1 : Point2D F32) :
    c_j_tilde_f32 u j [q0, q1] [p0, p1]
      = .ok (matOfPoint3D
          ⟨fadd (fadd (some 0) (fmul q0.x (switch_j j p0 u)))
              (fmul q1.x (switch_j j p1 (switch_j j p0 u))),
            fadd (fadd (some 0) (fmul q0.y (switch_j j p0 (switch_j j p1 (switch_j j p0 u)))))
              (fmul q1.y (switch_j j p1 (switch_j j p0 (switch_j j p1 (switch_j j p0 u))))),
            fadd (fadd (some 0) (fmul (some 1)
                (switch_j j p0 (switch_j j p1 (switch_j j p0 (switch_j j p1
                  (switch_j j p0 u)))))))
              (fmul (some 1)
                (switch_j j p1 (switch_j j p0 (switch_j j p1 (switch_j j p0 (switch_j j p1
                  (switch_j j p0 u)))))))⟩) := by
  unfold c_j_tilde_f32
  rw [dif_neg (by simp), if_neg hj]
  rfl

theorem c_j_tilde_f32_example (u : F32) :
    c_j_tilde_f32 u 0 [⟨some 0, some 0⟩, ⟨some 0, some 0⟩]
        [⟨some 16777216, some 0⟩, ⟨some 1, some 0⟩]
      = .ok (matOfPoint3D ⟨some 0, some 0, some 16777216⟩) := by
  rw [c_j_tilde_f32_two u 0 (by omega)]
  simp only [switch_j]
  norm_num [fadd_some, fmul_some, fl32_zero, fl32_one, fl32_16777216, fl32_16777217]

theorem fmul_comm (a b : F32) : fmul a b = fmul b a := by
  cases a <;> cases b <;> simp [fmul, mul_comm]

theorem foldl_f32_symmetric (Q_set : List (Point2D F32)) (l : List (Fin Q_set.length))
    (M0 : Mat F32 3 3) (h0 : ∀ r c, M0 r c = M0 c r) (r c : Fin 3) :
    l.foldl
        (fun Q_matrix_tilde i =>
          add_f32 Q_matrix_tilde
            (mul_f32 (q_to_q_tilde_f32 (Q_set.get i)) (q_to_q_tilde_f32 (Q_set.get i)).transpose))
        M0 r c
      = l.foldl
        (fun Q_matrix_tilde i =>
          add_f32 Q_matrix_tilde
            (mul_f32 (q_to_q_tilde_f32 (Q_set.get i)) (q_to_q_tilde_f32 (Q_set.get i)).transpose))
        M0 c r := by
  induction l generalizing M0 with
  | nil => exact h0 r c
  | cons i l ih =>
    simp only [List.foldl_cons]
    apply ih
    intro r c
    simp only [add_f32, mul_f32, Matrix.of_apply, Matrix.transpose_apply]
    rw [h0 r c, fmul_comm]

theorem Q_matrix_tilde_f32_symmetric (Q_set : List (Point2D F32)) :
    (Q_set_to_Q_matrix_tilde_f32 Q_set).transpose = Q_set_to_Q_matrix_tilde_f32 Q_set := by
  apply Matrix.ext
  intro r c
  rw [Matrix.transpose_apply]
  unfold Q_set_to_Q_matrix_tilde_f32
  exact foldl_f32_symmetric Q_set (List.finRange Q_set.length) (Matrix.of fun _ _ => some 0)
    (fun _ _ => rfl) c r

theorem c_j_tilde_f32_nil (u : F32) (j : Fin 2) :
    c_j_tilde_f32 u j.val [] [] = .ok (matOfPoint3D ⟨some 0, some 0, some 0⟩) := by
  unfold c_j_tilde_f32
  rw [dif_neg (by simp), if_neg (by omega)]
  rfl

/-! ## The estimator: optimality, exactness, failures -/

/-- C1: least-squares optimality. For equal-length `P` and `Q` with three
non-collinear points in `P`, `estimate P Q` returns a matrix `[A | b]` whose sum
of squared distances between `A * P_i + b` and `Q_i` is at most that of every
other pair `A'`, `b'`. -/
theorem estimate_least_squares [LinearOrderedField K] (P Q : List (Point2D K))
    (hlen : P.length = Q.length) (hP : Nondegenerate P) :
    ∃ (A : Mat K 2 2) (b : Fin 2 → K), estimate P Q = .ok (augment A b) ∧
      ∀ (A' : Mat K 2 2) (b' : Fin 2 → K), sqResidual A b P Q ≤ sqResidual A' b' P Q := by
  refine ⟨Matrix.of fun i k =>
      Matrix.mulVec (inv (Q_set_to_Q_matrix_tilde P)) (rhs i P Q) k.castSucc,
    fun i => Matrix.mulVec (inv (Q_set_to_Q_matrix_tilde P)) (rhs i P Q) 2, ?_, ?_⟩
  · rw [estimate_eq P Q hlen]
    congr 1
    ext j r
    rw [augment_rows (fun j => Matrix.mulVec (inv (Q_set_to_Q_matrix_tilde P)) (rhs j P Q))]
    rfl
  · intro A' b'
    rw [sqResidual_eq, sqResidual_eq,
      augment_rows (fun j => Matrix.mulVec (inv (Q_set_to_Q_matrix_tilde P)) (rhs j P Q)),
      augment_rows (fun j => Matrix.mulVec (inv (Q_set_to_Q_matrix_tilde P)) (rhs j P Q))]
    exact add_le_add (row_least_squares 0 P Q hlen hP _) (row_least_squares 1 P Q hlen hP _)

theorem estimate_least_squares_witness :
    ∃ (A : Mat ℚ 2 2) (b : Fin 2 → ℚ),
      estimate [⟨0, 0⟩, ⟨1, 0⟩, ⟨0, 1⟩, ⟨1, 1⟩] [⟨0, 0⟩, ⟨2, 0⟩, ⟨0, 1⟩, ⟨3, 5⟩]
        = .ok (augment A b) ∧
      ∀ (A' : Mat ℚ 2 2) (b' : Fin 2 → ℚ),
        sqResidual A b [⟨0, 0⟩, ⟨1, 0⟩, ⟨0, 1⟩, ⟨1, 1⟩] [⟨0, 0⟩, ⟨2, 0⟩, ⟨0, 1⟩, ⟨3, 5⟩]
          ≤ sqResidual A' b' [⟨0, 0⟩, ⟨1, 0⟩, ⟨0, 1⟩, ⟨1, 1⟩]
              [⟨0, 0⟩, ⟨2, 0⟩, ⟨0, 1⟩, ⟨3, 5⟩] :=
  estimate_least_squares _ _ (by decide)
    ⟨⟨0, 0⟩, by simp, ⟨1, 0⟩, by simp, ⟨0, 1⟩, by simp, by norm_num [collinear]⟩

/-- C2: exactness on exact affine data. For a nondegenerate `P`, an invertible
`A` and any `b`, if `Q` has the length of `P` and `Q_i = A * P_i + b` at every
index, then `estimate P Q` returns exactly `[A | b]`. -/
theorem estimate_exact [LinearOrderedField K] (P Q : List (Point2D K))
    (A : Mat K 2 2) (b : Fin 2 → K) (hP : Nondegenerate P) (_hA : A.det ≠ 0)
    (hlen : Q.length = P.length)
    (hQ : ∀ (i : Nat) (h1 : i < Q.length) (h2 : i < P.length), Q[i] = affineMap A b P[i]) :
    estimate P Q = .ok (augment A b) := by
  have hQ2 : Q = P.map (affineMap A b) := by
    apply List.ext_getElem
    · simpa using hlen
    · intro i h1 h2
      rw [List.getElem_map]
      exact hQ i h1 (by simpa using h2)
  rw [hQ2]
  exact estimate_affine_data P hP A b

theorem estimate_exact_witness :
    estimate ([⟨0, 0⟩, ⟨1, 0⟩, ⟨0, 1⟩, ⟨2, 3⟩] : List (Point2D ℚ))
        [⟨5, 6⟩, ⟨6, 9⟩, ⟨7, 10⟩, ⟨13, 24⟩]
      = .ok (augment !![1, 2; 3, 4] ![5, 6]) :=
  estimate_exact _ _ !![1, 2; 3, 4] ![5, 6]
    ⟨⟨0, 0⟩, by simp, ⟨1, 0⟩, by simp, ⟨0, 1⟩, by simp, by norm_num [collinear]⟩
    (by rw [Matrix.det_fin_two]; norm_num)
    (by decide)
    (by
      intro i h1 h2
      have h3 : i < 4 := by simpa using h1
      interval_cases i <;> simp [affineMap] <;> norm_num)

/-- C3: length-mismatch failure. Whenever the lengths of `P` and `Q` differ,
`estimate P Q` fails with the thrown code `0`, whatever the coordinates are. -/
theorem estimate_length_mismatch [Field K] [DecidableEq K] (P Q : List (Point2D K))
    (h : P.length ≠ Q.length) : estimate P Q = .error 0 :=
  estimate_length_ne P Q h

theorem estimate_length_mismatch_witness :
    estimate ([⟨0, 0⟩, ⟨1, 0⟩, ⟨0, 1⟩] : List (Point2D ℚ)) [⟨0, 0⟩, ⟨1, 0⟩] = .error 0 :=
  estimate_length_mismatch _ _ (by decide)

/-- C4 as stated fails. With `P = (0,0),(1,0),(0,1)` and the collinear
`Q = (0,0),(1,0),(2,0)` of the same length, `estimate P Q` is no error: it
returns the matrix `[[1, 2, 0], [0, 0, 0]]`. With the two points
`P = Q = (0,0),(1,0)` it is no error either. -/
theorem estimate_collinear_Q_returns :
    (∀ p ∈ ([⟨0, 0⟩, ⟨1, 0⟩, ⟨2, 0⟩] : List (Point2D ℚ)), ∀ q ∈ [⟨0, 0⟩, ⟨1, 0⟩, ⟨2, 0⟩],
        ∀ r ∈ ([⟨0, 0⟩, ⟨1, 0⟩, ⟨2, 0⟩] : List (Point2D ℚ)), collinear p q r) ∧
      estimate ([⟨0, 0⟩, ⟨1, 0⟩, ⟨0, 1⟩] : List (Point2D ℚ)) [⟨0, 0⟩, ⟨1, 0⟩, ⟨2, 0⟩]
        = .ok !![1, 2, 0; 0, 0, 0] ∧
      (∀ e : Int,
        estimate ([⟨0, 0⟩, ⟨1, 0⟩, ⟨0, 1⟩] : List (Point2D ℚ)) [⟨0, 0⟩, ⟨1, 0⟩, ⟨2, 0⟩]
          ≠ .error e) ∧
      (∀ e : Int,
        estimate ([⟨0, 0⟩, ⟨1, 0⟩] : List (Point2D ℚ)) [⟨0, 0⟩, ⟨1, 0⟩] ≠ .error e) := by
  have h1 := estimate_affine_data ([⟨0, 0⟩, ⟨1, 0⟩, ⟨0, 1⟩] : List (Point2D ℚ))
    ⟨⟨0, 0⟩, by simp, ⟨1, 0⟩, by simp, ⟨0, 1⟩, by simp, by norm_num [collinear]⟩
    !![1, 2; 0, 0] ![0, 0]
  have haug : augment (!![1, 2; 0, 0] : Mat ℚ 2 2) ![0, 0] = !![1, 2, 0; 0, 0, 0] := by
    ext i k
    fin_cases i <;> fin_cases k <;> simp [augment]
  simp [affineMap] at h1
  rw [haug] at h1
  refine ⟨?_, h1, ?_, ?_⟩
  · intro p hp q hq r hr
    simp only [List.mem_cons, List.mem_singleton, List.not_mem_nil, or_false] at hp hq hr
    rcases hp with rfl | rfl | rfl <;> rcases hq with rfl | rfl | rfl <;>
      rcases hr with rfl | rfl | rfl <;> norm_num [collinear]
  · intro e
    rw [h1]
    exact fun h => Except.noConfusion h
  · intro e
    rw [estimate_eq _ _ (by decide)]
    exact fun h => Except.noConfusion h

/-- C4, amended. For equal-length `P` and `Q` with fewer than 3 points, or with
all points of `Q` collinear, `estimate P Q` raises no error and returns a 2x3
matrix: the code has no SingularSystem error. -/
theorem estimate_degenerate_returns [Field K] [DecidableEq K] (P Q : List (Point2D K))
    (hlen : P.length = Q.length)
    (_hdeg : P.length < 3 ∨ ∀ p ∈ Q, ∀ q ∈ Q, ∀ r ∈ Q, collinear p q r) :
    (∃ T : Mat K 2 3, estimate P Q = .ok T) ∧ ∀ e : Int, estimate P Q ≠ .error e := by
  rw [estimate_eq P Q hlen]
  exact ⟨⟨_, rfl⟩, fun e h => Except.noConfusion h⟩

theorem estimate_degenerate_returns_witness :
    (∃ T : Mat ℚ 2 3, estimate ([⟨0, 0⟩, ⟨1, 0⟩] : List (Point2D ℚ)) [⟨3, 4⟩, ⟨5, 6⟩] = .ok T) ∧
      ∀ e : Int, estimate ([⟨0, 0⟩, ⟨1, 0⟩] : List (Point2D ℚ)) [⟨3, 4⟩, ⟨5, 6⟩] ≠ .error e :=
  estimate_degenerate_returns _ _ (by decide) (Or.inl (by decide))

/-- C5: identity recovery. For a sequence `P` of at least three points that are
not all collinear, `estimate P P` returns `[[1, 0, 0], [0, 1, 0]]`. -/
theorem estimate_identity [LinearOrderedField K] (P : List (Point2D K))
    (_h3 : 3 ≤ P.length) (hP : Nondegenerate P) :
    estimate P P = .ok !![1, 0, 0; 0, 1, 0] := by
  have h := estimate_affine_data P hP 1 0
  have hmap : P.map (affineMap (1 : Mat K 2 2) 0) = P := by
    conv_rhs => rw [← List.map_id P]
    apply List.map_congr_left
    intro p _
    cases p
    simp [affineMap]
  have haug : augment (1 : Mat K 2 2) 0 = !![1, 0, 0; 0, 1, 0] := by
    ext i k
    fin_cases i <;> fin_cases k <;> simp [augment]
  rw [hmap, haug] at h
  exact h

theorem estimate_identity_witness :
    estimate ([⟨0, 0⟩, ⟨1, 0⟩, ⟨0, 1⟩] : List (Point2D ℚ)) [⟨0, 0⟩, ⟨1, 0⟩, ⟨0, 1⟩]
      = .ok !![1, 0, 0; 0, 1, 0] :=
  estimate_identity _ (by decide)
    ⟨⟨0, 0⟩, by simp, ⟨1, 0⟩, by simp, ⟨0, 1⟩, by simp, by norm_num [collinear]⟩

/-! ## Reordering and the reference example -/

/-- C6: invariance under a common permutation. For `P` and `Q` of the same
length `n` and every permutation `s` of the indices, `estimate` on `P` and `Q`
both reordered by `s` returns what `estimate P Q` returns. -/
theorem estimate_reorder_both [Field K] [DecidableEq K] {n : Nat} (P Q : List (Point2D K))
    (hP : P.length = n) (hQ : Q.length = n) (s : Equiv.Perm (Fin n)) :
    estimate (reorder P hP s) (reorder Q hQ s) = estimate P Q := by
  rw [estimate_eq P Q (hP.trans hQ.symm),
    estimate_eq _ _ ((length_reorder P hP s).trans (length_reorder Q hQ s).symm)]
  have hM : Q_set_to_Q_matrix_tilde (reorder P hP s) = Q_set_to_Q_matrix_tilde P := by
    ext r c
    rw [Q_matrix_tilde_apply, Q_matrix_tilde_apply]
    exact ((reorder_perm P hP s).map _).sum_eq
  have hc : ∀ j : Fin 2, rhs j (reorder P hP s) (reorder Q hQ s) = rhs j P Q := by
    intro j
    funext r
    exact (zipWith_reorder_perm _ P Q hP hQ s).sum_eq
  simp only [hM, hc]

theorem estimate_reorder_both_witness :
    estimate
        (reorder ([⟨0, 0⟩, ⟨1, 0⟩, ⟨0, 1⟩] : List (Point2D ℚ)) (Eq.refl 3) (Equiv.swap 0 2))
        (reorder ([⟨3, 1⟩, ⟨4, 1⟩, ⟨5, 9⟩] : List (Point2D ℚ)) (Eq.refl 3) (Equiv.swap 0 2))
      = estimate [⟨0, 0⟩, ⟨1, 0⟩, ⟨0, 1⟩] [⟨3, 1⟩, ⟨4, 1⟩, ⟨5, 9⟩] :=
  estimate_reorder_both _ _ (Eq.refl 3) (Eq.refl 3) (Equiv.swap 0 2)

/-- C7: golden value of the reference example of `main`. With `s = sqrt(2)/2`,
`P = (1,0),(0,1),(-1,0),(0,-1)` and
`Q = (1+s,1+s),(1-s,1+s),(1-s,1-s),(1+s,1-s)`, `estimate P Q` returns
`[[s, -s, 1], [s, s, 1]]`. -/
theorem estimate_reference_example :
    estimate ([⟨1, 0⟩, ⟨0, 1⟩, ⟨-1, 0⟩, ⟨0, -1⟩] : List (Point2D ℝ))
        [⟨1 + Real.sqrt 2 / 2, 1 + Real.sqrt 2 / 2⟩, ⟨1 - Real.sqrt 2 / 2, 1 + Real.sqrt 2 / 2⟩,
          ⟨1 - Real.sqrt 2 / 2, 1 - Real.sqrt 2 / 2⟩, ⟨1 + Real.sqrt 2 / 2, 1 - Real.sqrt 2 / 2⟩]
      = .ok !![Real.sqrt 2 / 2, -(Real.sqrt 2 / 2), 1; Real.sqrt 2 / 2, Real.sqrt 2 / 2, 1] := by
  have hP : Nondegenerate ([⟨1, 0⟩, ⟨0, 1⟩, ⟨-1, 0⟩, ⟨0, -1⟩] : List (Point2D ℝ)) :=
    ⟨⟨1, 0⟩, by simp, ⟨0, 1⟩, by simp, ⟨-1, 0⟩, by simp, by norm_num [collinear]⟩
  have h := estimate_affine_data _ hP
    !![Real.sqrt 2 / 2, -(Real.sqrt 2 / 2); Real.sqrt 2 / 2, Real.sqrt 2 / 2] ![1, 1]
  have hQ : List.map (affineMap
        !![Real.sqrt 2 / 2, -(Real.sqrt 2 / 2); Real.sqrt 2 / 2, Real.sqrt 2 / 2] ![1, 1])
        ([⟨1, 0⟩, ⟨0, 1⟩, ⟨-1, 0⟩, ⟨0, -1⟩] : List (Point2D ℝ))
      = [⟨1 + Real.sqrt 2 / 2, 1 + Real.sqrt 2 / 2⟩, ⟨1 - Real.sqrt 2 / 2, 1 + Real.sqrt 2 / 2⟩,
          ⟨1 - Real.sqrt 2 / 2, 1 - Real.sqrt 2 / 2⟩,
          ⟨1 + Real.sqrt 2 / 2, 1 - Real.sqrt 2 / 2⟩] := by
    simp [affineMap]
    refine ⟨?_, ⟨?_, ?_⟩, ?_, ?_, ?_⟩ <;> ring
  have haug : augment
        !![Real.sqrt 2 / 2, -(Real.sqrt 2 / 2); Real.sqrt 2 / 2, Real.sqrt 2 / 2] ![1, 1]
      = !![Real.sqrt 2 / 2, -(Real.sqrt 2 / 2), 1; Real.sqrt 2 / 2, Real.sqrt 2 / 2, 1] := by
    ext i k
    fin_cases i <;> fin_cases k <;> simp [augment]
  rw [hQ, haug] at h
  exact h

/-! ## The normal matrix -/

/-- C8: invertibility criterion of the normal matrix. For every point sequence
`S`, `Q_set_to_Q_matrix_tilde S` is positive-definite exactly when `S` contains
three non-collinear points, and it has a non-zero determinant exactly in the same
case; in particular it is singular when `S` has fewer than 3 points and when all
points of `S` are collinear or coincident. -/
theorem Q_matrix_tilde_invertible_iff [LinearOrderedField K] (S : List (Point2D K)) :
    ((∀ v : Fin 3 → K, v ≠ 0 →
        0 < Matrix.dotProduct v (Matrix.mulVec (Q_set_to_Q_matrix_tilde S) v))
        ↔ Nondegenerate S) ∧
      ((Q_set_to_Q_matrix_tilde S).det ≠ 0 ↔ Nondegenerate S) ∧
      (S.length < 3 → (Q_set_to_Q_matrix_tilde S).det = 0) ∧
      ((∀ p ∈ S, ∀ q ∈ S, ∀ r ∈ S, collinear p q r) →
        (Q_set_to_Q_matrix_tilde S).det = 0) := by
  have hdet : (Q_set_to_Q_matrix_tilde S).det ≠ 0 ↔ Nondegenerate S := by
    constructor
    · intro h
      by_contra hS
      exact h (det_eq_zero_of_degenerate S hS)
    · intro h
      exact det_ne_zero_of_posDef _ (posDef_of_nondegenerate S h)
  refine ⟨⟨fun h => hdet.mp (det_ne_zero_of_posDef _ h), posDef_of_nondegenerate S⟩,
    hdet, ?_, ?_⟩
  · intro h
    exact det_eq_zero_of_degenerate S (not_nondegenerate_of_length_lt S h)
  · intro h
    apply det_eq_zero_of_degenerate S
    rintro ⟨p, hp, q, hq, r, hr, hc⟩
    exact hc (h p hp q hq r hr)

/-- C9 as stated fails in binary32, the arithmetic of `main`. For the single point
`S = (4097, 0)` the code returns `[[16785408, 0, 4097], [0, 0, 0], [4097, 0, 1]]`,
the product `4097 * 4097 = 16785409` being rounded, and `v^T * M * v = -1` at
`v = (1, 0, -4097)`. -/
theorem Q_matrix_tilde_f32_not_posSemidef :
    (∀ r c : Fin 3, Q_set_to_Q_matrix_tilde_f32 [⟨some 4097, some 0⟩] r c
        = some ((!![16785408, 0, 4097; 0, 0, 0; 4097, 0, 1] : Mat ℚ 3 3) r c)) ∧
      Matrix.dotProduct ![1, 0, -4097]
          (Matrix.mulVec (!![16785408, 0, 4097; 0, 0, 0; 4097, 0, 1] : Mat ℚ 3 3)
            ![1, 0, -4097]) = -1 := by
  constructor
  · intro r c
    rw [Q_matrix_tilde_f32_4097]
    fin_cases r <;> fin_cases c <;> rfl
  · simp [Matrix.mulVec, Matrix.dotProduct, Fin.sum_univ_three]
    norm_num

/-- C9, amended: the normal matrix is always symmetric, and in exact arithmetic it
is positive-semidefinite. For every point sequence, the empty one included,
`M = Q_set_to_Q_matrix_tilde S` equals its transpose; in binary32 too the entries
`(r, c)` and `(c, r)` are the same finite number or are both not finite; over an
ordered field `v^T * M * v >= 0` for every 3-vector `v`. -/
theorem Q_matrix_tilde_symmetric_posSemidef [LinearOrderedField K] (S : List (Point2D K))
    (Sf : List (Point2D F32)) :
    (Q_set_to_Q_matrix_tilde_f32 Sf).transpose = Q_set_to_Q_matrix_tilde_f32 Sf ∧
      (Q_set_to_Q_matrix_tilde S).transpose = Q_set_to_Q_matrix_tilde S ∧
      ∀ v : Fin 3 → K,
        0 ≤ Matrix.dotProduct v (Matrix.mulVec (Q_set_to_Q_matrix_tilde S) v) := by
  refine ⟨Q_matrix_tilde_f32_symmetric Sf, ?_, ?_⟩
  · ext r c
    rw [Matrix.transpose_apply, Q_matrix_tilde_apply, Q_matrix_tilde_apply]
    congr 2
    funext p
    ring
  · intro v
    rw [Q_matrix_tilde_quadratic]
    exact sum_sq_nonneg S _

/-! ## Correspondence matters -/

/-- C10: permutation sensitivity. There are equal-length sequences `P` and `Q`
with `P` nondegenerate and a permutation `s` of the indices such that reordering
only `P` by `s` changes the result of `estimate`, and reordering only `Q` by `s`
changes it as well. -/
theorem estimate_reorder_one_changes :
    ∃ (P Q : List (Point2D ℚ)) (hP : P.length = 3) (hQ : Q.length = 3)
      (s : Equiv.Perm (Fin 3)),
      Nondegenerate P ∧
        estimate (reorder P hP s) Q ≠ estimate P Q ∧
        estimate P (reorder Q hQ s) ≠ estimate P Q := by
  refine ⟨[⟨0, 0⟩, ⟨1, 0⟩, ⟨0, 1⟩], [⟨0, 0⟩, ⟨1, 0⟩, ⟨0, 1⟩], rfl, rfl, Equiv.swap 0 1,
    nondegenerate_triangle, ?_, ?_⟩
  · rw [reorder_triangle]
    have h1 := estimate_affine_data ([⟨1, 0⟩, ⟨0, 0⟩, ⟨0, 1⟩] : List (Point2D ℚ))
      ⟨⟨0, 0⟩, by simp, ⟨1, 0⟩, by simp, ⟨0, 1⟩, by simp, by norm_num [collinear]⟩
      !![-1, -1; 0, 1] ![1, 0]
    have h2 := estimate_affine_data ([⟨0, 0⟩, ⟨1, 0⟩, ⟨0, 1⟩] : List (Point2D ℚ))
      nondegenerate_triangle 1 0
    simp [affineMap] at h1 h2
    rw [h1, h2]
    exact ok_augment_ne (by norm_num)
  · rw [reorder_triangle]
    have h1 := estimate_affine_data ([⟨0, 0⟩, ⟨1, 0⟩, ⟨0, 1⟩] : List (Point2D ℚ))
      nondegenerate_triangle !![-1, -1; 0, 1] ![1, 0]
    have h2 := estimate_affine_data ([⟨0, 0⟩, ⟨1, 0⟩, ⟨0, 1⟩] : List (Point2D ℚ))
      nondegenerate_triangle 1 0
    simp [affineMap] at h1 h2
    rw [h1, h2]
    exact ok_augment_ne (by norm_num)

/-! ## The algorithm of the specification -/

theorem c_j_tilde_error_cases [Field K] (u : K) (j : Nat) (Q_set P_set : List (Point2D K))
    (e : Int) (h : c_j_tilde u j Q_set P_set = .error e) :
    (e = 0 ∧ Q_set.length ≠ P_set.length) ∨ (e = 1 ∧ 2 < j) := by
  unfold c_j_tilde at h
  by_cases hlen : Q_set.length ≠ P_set.length
  · rw [dif_pos hlen] at h
    left
    refine ⟨?_, hlen⟩
    injection h with h
    exact h.symm
  · rw [dif_neg hlen] at h
    by_cases hj : j > 2
    · rw [if_pos hj] at h
      right
      refine ⟨?_, hj⟩
      injection h with h
      exact h.symm
    · rw [if_neg hj] at h
      exact Except.noConfusion h

/-- C12 fails at `j = 2`. The index `2` passes the test `j > 2` and matches no
`case`, so for `Q_set = (1,2)` and `P_set = (3,4)` the call does not throw `1`:
it returns the column `(u, 2 u, u)` built from the content `u` that the
uninitialised `p_ji` happens to have. -/
theorem c_j_tilde_index_two (u : ℚ) :
    c_j_tilde u 2 [⟨1, 2⟩] [⟨3, 4⟩] = .ok (matOfPoint3D ⟨u, 2 * u, u⟩) ∧
      c_j_tilde u 2 [⟨1, 2⟩] [⟨3, 4⟩] ≠ .error 1 := by
  have h : c_j_tilde u 2 [⟨1, 2⟩] [⟨3, 4⟩] = .ok (matOfPoint3D ⟨u, 2 * u, u⟩) := by
    unfold c_j_tilde
    rw [dif_neg (by simp), if_neg (by omega)]
    simp [c_j_loop, switch_j, List.finRange]
    rfl
  refine ⟨h, ?_⟩
  rw [h]
  exact fun h2 => Except.noConfusion h2

/-- C13 as stated fails in binary32, the arithmetic of `main`. For `j = 0`,
`Q_set = (0,0),(0,0)` and `P_set = (16777216,0),(1,0)` the code returns the column
`(0, 0, 16777216)`: the sum `16777216 + 1` is rounded, while the stated third
component `sum_i P_set[i].x` is `16777217`. -/
theorem c_j_tilde_f32_sum_rounded :
    c_j_tilde_f32 (some 0) 0 [⟨some 0, some 0⟩, ⟨some 0, some 0⟩]
        [⟨some 16777216, some 0⟩, ⟨some 1, some 0⟩]
        = .ok (matOfPoint3D ⟨some 0, some 0, some 16777216⟩) ∧
      (([⟨16777216, 0⟩, ⟨1, 0⟩] : List (Point2D ℚ)).map (coord 0)).sum = 16777217 := by
  refine ⟨c_j_tilde_f32_example (some 0), ?_⟩
  simp [coord]
  norm_num

/-- C13, amended: right-hand-side formula in exact arithmetic. For `j` in `{0, 1}`
and sequences `Q_set` and `P_set` of equal length `m`, in exact arithmetic
`c_j_tilde j Q_set P_set` returns the column
`(sum_i Q_set[i].x * P_set[i][j], sum_i Q_set[i].y * P_set[i][j], sum_i P_set[i][j])`,
whatever the initial content of `p_ji`; for `m = 0` it is the zero column, in
binary32 as well. -/
theorem c_j_tilde_formula [Field K] (u : K) (uf : F32) (j : Fin 2)
    (Q_set P_set : List (Point2D K)) (h : Q_set.length = P_set.length) :
    c_j_tilde u j.val Q_set P_set = .ok (matOfPoint3D
        ⟨∑ i : Fin Q_set.length, (Q_set.get i).x * coord j (P_set.get (i.cast h)),
          ∑ i : Fin Q_set.length, (Q_set.get i).y * coord j (P_set.get (i.cast h)),
          ∑ i : Fin Q_set.length, coord j (P_set.get (i.cast h))⟩) ∧
      (Q_set.length = 0 → c_j_tilde u j.val Q_set P_set = .ok 0) ∧
      c_j_tilde_f32 uf j.val [] [] = .ok (matOfPoint3D ⟨some 0, some 0, some 0⟩) := by
  have hj : ¬ (j.val > 2) := by omega
  have hmain : c_j_tilde u j.val Q_set P_set = .ok (matOfPoint3D
        ⟨∑ i : Fin Q_set.length, (Q_set.get i).x * coord j (P_set.get (i.cast h)),
          ∑ i : Fin Q_set.length, (Q_set.get i).y * coord j (P_set.get (i.cast h)),
          ∑ i : Fin Q_set.length, coord j (P_set.get (i.cast h))⟩) := by
    unfold c_j_tilde
    rw [dif_neg (not_not.mpr h), if_neg hj]
    simp only [c_j_loop_snd, Fin.sum_univ_def, one_mul]
    rfl
  refine ⟨hmain, ?_, c_j_tilde_f32_nil uf j⟩
  intro h0
  rw [hmain]
  congr 1
  ext r c
  have hQ : Q_set = [] := List.length_eq_zero.mp h0
  subst hQ
  fin_cases r <;> simp [matOfPoint3D]

theorem c_j_tilde_formula_witness :
    c_j_tilde (7 : ℚ) 1 [⟨1, 2⟩, ⟨3, 4⟩] [⟨5, 6⟩, ⟨7, 8⟩]
      = .ok (matOfPoint3D ⟨30, 44, 14⟩) := by
  have h := (c_j_tilde_formula (7 : ℚ) none 1 [⟨1, 2⟩, ⟨3, 4⟩] [⟨5, 6⟩, ⟨7, 8⟩]
    (Eq.refl 2)).1
  simp only [Fin.val_one] at h
  rw [h]
  simp [Fin.sum_univ_two, coord]
  norm_num

/-- C14 as stated fails in binary32, the arithmetic of `main`. For the single point
`S = (4097, 0)` entry `(0, 0)` of the returned matrix is `16785408`, while the
stated sum of the products of the components is `4097 * 4097 = 16785409`. -/
theorem Q_matrix_tilde_f32_entry_rounded :
    Q_set_to_Q_matrix_tilde_f32 [⟨some 4097, some 0⟩] 0 0 = some 16785408 ∧
      (([⟨4097, 0⟩] : List (Point2D ℚ)).map (fun s => lift s 0 * lift s 0)).sum
        = 16785409 := by
  constructor
  · rw [Q_matrix_tilde_f32_4097]
    rfl
  · simp [lift]
    norm_num

/-- C14, amended: normal-matrix formula in exact arithmetic. For every point
sequence `S`, in exact arithmetic entry `(r, c)` of `Q_set_to_Q_matrix_tilde S` is
the sum over the points `s` of `S` of the product of the `r`-th and `c`-th
components of `(s.x, s.y, 1)`, and entry `(2, 2)` is the number of points; the
matrix is zero for the empty sequence, in binary32 as well. -/
theorem Q_matrix_tilde_formula [Field K] (S : List (Point2D K)) :
    (∀ r c : Fin 3,
        Q_set_to_Q_matrix_tilde S r c = (S.map (fun s => lift s r * lift s c)).sum) ∧
      Q_set_to_Q_matrix_tilde S 2 2 = (S.length : K) ∧
      Q_set_to_Q_matrix_tilde ([] : List (Point2D K)) = 0 ∧
      Q_set_to_Q_matrix_tilde_f32 [] = Matrix.of fun _ _ => some 0 := by
  refine ⟨fun r c => Q_matrix_tilde_apply S r c, ?_, ?_, rfl⟩
  · rw [Q_matrix_tilde_apply]
    induction S with
    | nil => simp
    | cons s S ih =>
      simp only [List.map_cons, List.sum_cons, ih, List.length_cons]
      simp [lift]
      ring
  · ext r c
    rw [Q_matrix_tilde_apply]
    simp

/-! ## Errors of the estimator -/

/-- C15: `estimate` raises an error only for mismatched lengths. For `P` and `Q`
of equal length (empty, fewer than 3 points and all-collinear included) it
returns a 2x3 matrix; whatever the lengths, an error of `estimate` is the code
`0` of a size mismatch, and the two calls `c_j_tilde(0, P, Q)` and
`c_j_tilde(1, P, Q)` never end in the invalid-index code `1`. -/
theorem estimate_error_only_mismatch [Field K] [DecidableEq K] (P Q : List (Point2D K)) :
    (P.length = Q.length → ∃ T : Mat K 2 3, estimate P Q = .ok T) ∧
      (∀ e : Int, estimate P Q = .error e → e = 0 ∧ P.length ≠ Q.length) ∧
      estimate P Q ≠ .error 1 ∧
      (∀ u : K, c_j_tilde u 0 P Q ≠ .error 1 ∧ c_j_tilde u 1 P Q ≠ .error 1) := by
  have herr : ∀ e : Int, estimate P Q = .error e → e = 0 ∧ P.length ≠ Q.length := by
    intro e he
    by_cases hlen : P.length = Q.length
    · rw [estimate_eq P Q hlen] at he
      exact Except.noConfusion he
    · rw [estimate_length_ne P Q hlen] at he
      injection he with he
      exact ⟨he.symm, hlen⟩
  refine ⟨fun hlen => ⟨_, estimate_eq P Q hlen⟩, herr, ?_, ?_⟩
  · intro h1
    have := (herr 1 h1).1
    omega
  · intro u
    constructor
    · intro h1
      rcases c_j_tilde_error_cases u 0 P Q 1 h1 with ⟨h, _⟩ | ⟨_, h⟩ <;> omega
    · intro h1
      rcases c_j_tilde_error_cases u 1 P Q 1 h1 with ⟨h, _⟩ | ⟨_, h⟩ <;> omega

/-! ## Normal equations and equivariance -/

theorem coord_residual [Field K] (A : Mat K 2 2) (b : Fin 2 → K) (j : Fin 2)
    (p q : Point2D K) :
    coord j (residual A b p q) = Matrix.dotProduct (lift p) (augment A b j) - coord j q := by
  rw [← coord_affineMap]
  fin_cases j <;> simp [residual, coord]

theorem sum_zipWith_mul_sub [Field K] {α β : Type} (w g : α → K) (h : β → K)
    (P : List α) (Q : List β) :
    (List.zipWith (fun p q => w p * (g p - h q)) P Q).sum
      = (List.zipWith (fun p _ => w p * g p) P Q).sum
        - (List.zipWith (fun p q => w p * h q) P Q).sum := by
  induction P generalizing Q with
  | nil => simp
  | cons p P ih =>
    cases Q with
    | nil => simp
    | cons q Q =>
      simp only [List.zipWith_cons_cons, List.sum_cons, ih Q]
      ring

/-- The normal equations: the residuals of row `j` of the result are orthogonal to
every component of the lifted source points. -/
theorem normal_equations [LinearOrderedField K] (j : Fin 2) (P Q : List (Point2D K))
    (hlen : P.length = Q.length) (hP : Nondegenerate P) (r : Fin 3) :
    (List.zipWith (fun p q => lift p r * (Matrix.dotProduct (lift p)
        (Matrix.mulVec (inv (Q_set_to_Q_matrix_tilde P)) (rhs j P Q)) - coord j q)) P Q).sum
      = 0 := by
  rw [sum_zipWith_mul_sub (fun p => lift p r)
    (fun p => Matrix.dotProduct (lift p)
      (Matrix.mulVec (inv (Q_set_to_Q_matrix_tilde P)) (rhs j P Q))) (coord j) P Q,
    rhs_eq_mulVec j P Q hlen (det3_ne_zero_of_nondegenerate P hP) r, sub_self]

theorem sum_zipWith_affine_sub [Field K] (a0 a1 a2 : K) (g : Point2D K → K)
    (P Q : List (Point2D K)) (h : P.length = Q.length) :
    (List.zipWith (fun p q => a0 * p.x + a1 * p.y + a2 - g q) P Q).sum
      = a0 * (P.map fun s => s.x).sum + a1 * (P.map fun s => s.y).sum
        + (P.length : K) * a2 - (Q.map g).sum := by
  induction P generalizing Q with
  | nil =>
    cases Q with
    | nil => simp
    | cons q Q => simp at h
  | cons p P ih =>
    cases Q with
    | nil => simp at h
    | cons q Q =>
      have h2 : P.length = Q.length := by simpa using h
      simp only [List.zipWith_cons_cons, List.sum_cons, List.map_cons, List.length_cons,
        ih Q h2]
      push_cast
      ring

theorem coord_residual_expand [Field K] (A : Mat K 2 2) (b : Fin 2 → K) (j : Fin 2)
    (p q : Point2D K) :
    coord j (residual A b p q) = A j 0 * p.x + A j 1 * p.y + b j - coord j q := by
  fin_cases j <;> simp [residual, affineMap, coord]

theorem centroid_of_sum_residual [LinearOrderedField K] (A : Mat K 2 2) (b : Fin 2 → K)
    (P Q : List (Point2D K)) (hlen : P.length = Q.length) (hpos : 0 < P.length)
    (h : ∀ j : Fin 2, (List.zipWith (fun p q => coord j (residual A b p q)) P Q).sum = 0) :
    affineMap A b (centroid P) = centroid Q := by
  have hm : (P.length : K) ≠ 0 := by
    have : (0 : K) < (P.length : K) := by exact_mod_cast hpos
    exact ne_of_gt this
  have h0 := h 0
  have h1 := h 1
  simp only [coord_residual_expand] at h0 h1
  rw [sum_zipWith_affine_sub _ _ _ _ P Q hlen] at h0 h1
  unfold centroid affineMap
  rw [← hlen]
  have c0 : (coord 0 : Point2D K → K) = fun s => s.x := rfl
  have c1 : (coord 1 : Point2D K → K) = fun s => s.y := rfl
  rw [c0] at h0
  rw [c1] at h1
  simp only [Point2D.mk.injEq]
  constructor
  · field_simp
    linear_combination h0
  · field_simp
    linear_combination h1

/-- C16: normal equations and centroid preservation. For equal-length `P` and `Q`
with three non-collinear points in `P`, the result `[A | b]` of `estimate P Q` has
residuals `r_i = A * P_i + b - Q_i` with `sum_i r_i = 0`, `sum_i P_i.x * r_i = 0`
and `sum_i P_i.y * r_i = 0` in both coordinates, and the fitted map sends the
centroid of `P` to the centroid of `Q`. -/
theorem estimate_normal_equations [LinearOrderedField K] (P Q : List (Point2D K))
    (hlen : P.length = Q.length) (hP : Nondegenerate P) :
    ∃ (A : Mat K 2 2) (b : Fin 2 → K), estimate P Q = .ok (augment A b) ∧
      (∀ j : Fin 2,
        (List.zipWith (fun p q => coord j (residual A b p q)) P Q).sum = 0 ∧
        (List.zipWith (fun p q => p.x * coord j (residual A b p q)) P Q).sum = 0 ∧
        (List.zipWith (fun p q => p.y * coord j (residual A b p q)) P Q).sum = 0) ∧
      affineMap A b (centroid P) = centroid Q := by
  have hrows := augment_rows
    (fun j => Matrix.mulVec (inv (Q_set_to_Q_matrix_tilde P)) (rhs j P Q))
  have hsum : ∀ j : Fin 2,
      (List.zipWith (fun p q => coord j (residual
        (Matrix.of fun i k =>
          Matrix.mulVec (inv (Q_set_to_Q_matrix_tilde P)) (rhs i P Q) k.castSucc)
        (fun i => Matrix.mulVec (inv (Q_set_to_Q_matrix_tilde P)) (rhs i P Q) 2) p q))
        P Q).sum = 0 := by
    intro j
    have h2 := normal_equations j P Q hlen hP 2
    simp only [coord_residual, hrows]
    have e : ∀ p : Point2D K, lift p 2 = 1 := fun p => rfl
    simpa only [e, one_mul] using h2
  refine ⟨Matrix.of fun i k =>
      Matrix.mulVec (inv (Q_set_to_Q_matrix_tilde P)) (rhs i P Q) k.castSucc,
    fun i => Matrix.mulVec (inv (Q_set_to_Q_matrix_tilde P)) (rhs i P Q) 2, ?_, ?_, ?_⟩
  · rw [estimate_eq P Q hlen]
    congr 1
    ext j r
    rw [hrows]
    rfl
  · intro j
    refine ⟨hsum j, ?_, ?_⟩
    · have h0 := normal_equations j P Q hlen hP 0
      simp only [coord_residual, hrows]
      exact h0
    · have h1 := normal_equations j P Q hlen hP 1
      simp only [coord_residual, hrows]
      exact h1
  · apply centroid_of_sum_residual _ _ P Q hlen _ hsum
    by_contra hlt
    exact not_nondegenerate_of_length_lt P (by omega) hP

theorem estimate_normal_equations_witness :
    ∃ (A : Mat ℚ 2 2) (b : Fin 2 → ℚ),
      estimate [⟨0, 0⟩, ⟨1, 0⟩, ⟨0, 1⟩, ⟨1, 1⟩] [⟨0, 0⟩, ⟨2, 0⟩, ⟨0, 1⟩, ⟨3, 5⟩]
        = .ok (augment A b) ∧
      (∀ j : Fin 2,
        (List.zipWith (fun p q => coord j (residual A b p q))
          [⟨0, 0⟩, ⟨1, 0⟩, ⟨0, 1⟩, ⟨1, 1⟩] [⟨0, 0⟩, ⟨2, 0⟩, ⟨0, 1⟩, ⟨3, 5⟩]).sum = 0 ∧
        (List.zipWith (fun p q => p.x * coord j (residual A b p q))
          [⟨0, 0⟩, ⟨1, 0⟩, ⟨0, 1⟩, ⟨1, 1⟩] [⟨0, 0⟩, ⟨2, 0⟩, ⟨0, 1⟩, ⟨3, 5⟩]).sum = 0 ∧
        (List.zipWith (fun p q => p.y * coord j (residual A b p q))
          [⟨0, 0⟩, ⟨1, 0⟩, ⟨0, 1⟩, ⟨1, 1⟩] [⟨0, 0⟩, ⟨2, 0⟩, ⟨0, 1⟩, ⟨3, 5⟩]).sum = 0) ∧
      affineMap A b (centroid [⟨0, 0⟩, ⟨1, 0⟩, ⟨0, 1⟩, ⟨1, 1⟩])
        = centroid [⟨0, 0⟩, ⟨2, 0⟩, ⟨0, 1⟩, ⟨3, 5⟩] :=
  estimate_normal_equations _ _ (by decide)
    ⟨⟨0, 0⟩, by simp, ⟨1, 0⟩, by simp, ⟨0, 1⟩, by simp, by norm_num [collinear]⟩

theorem sum_zipWith_coord_affineMap [Field K] (T : Mat K 2 2) (t : Fin 2 → K) (j : Fin 2)
    (r : Fin 3) (P Q : List (Point2D K)) :
    (List.zipWith (fun p q => lift p r * coord j (affineMap T t q)) P Q).sum
      = T j 0 * (List.zipWith (fun p q => lift p r * coord 0 q) P Q).sum
        + T j 1 * (List.zipWith (fun p q => lift p r * coord 1 q) P Q).sum
        + t j * (List.zipWith (fun p _ => lift p r) P Q).sum := by
  induction P generalizing Q with
  | nil => simp
  | cons p P ih =>
    cases Q with
    | nil => simp
    | cons q Q =>
      simp only [List.zipWith_cons_cons, List.sum_cons, ih Q]
      fin_cases j <;> simp [coord, affineMap] <;> ring

theorem Q_matrix_tilde_mulVec_e2 [Field K] (S : List (Point2D K)) (r : Fin 3) :
    Matrix.mulVec (Q_set_to_Q_matrix_tilde S) ![0, 0, 1] r = (S.map fun p => lift p r).sum := by
  rw [Q_matrix_tilde_mulVec]
  congr 2
  funext p
  have e : lift p 2 = 1 := rfl
  simp [Matrix.dotProduct, Fin.sum_univ_three, e]

theorem rhs_map_affineMap [Field K] (T : Mat K 2 2) (t : Fin 2 → K) (j : Fin 2)
    (P Q : List (Point2D K)) (hlen : P.length = Q.length) :
    rhs j P (Q.map (affineMap T t))
      = T j 0 • rhs 0 P Q + T j 1 • rhs 1 P Q
        + t j • Matrix.mulVec (Q_set_to_Q_matrix_tilde P) ![0, 0, 1] := by
  funext r
  simp only [Pi.add_apply, Pi.smul_apply, smul_eq_mul]
  rw [Q_matrix_tilde_mulVec_e2, ← zipWith_left_eq_map (fun p => lift p r) P Q hlen]
  unfold rhs
  rw [List.zipWith_map_right]
  exact sum_zipWith_coord_affineMap T t j r P Q

/-- C17: equivariance in the target set. For equal-length `P` and `Q` with three
non-collinear points in `P`, a 2x2 matrix `T` and a vector `t`, if
`Q'_i = T * Q_i + t` at every index and `estimate P Q` returns `[A | b]`, then
`estimate P Q'` returns `[T * A | T * b + t]`. -/
theorem estimate_target_equivariant [LinearOrderedField K] (P Q Q' : List (Point2D K))
    (T : Mat K 2 2) (t : Fin 2 → K) (A : Mat K 2 2) (b : Fin 2 → K)
    (hlen : P.length = Q.length) (hP : Nondegenerate P) (hlen' : Q'.length = Q.length)
    (hQ : ∀ (i : Nat) (h1 : i < Q'.length) (h2 : i < Q.length), Q'[i] = affineMap T t Q[i])
    (hest : estimate P Q = .ok (augment A b)) :
    estimate P Q' = .ok (augment (T * A) (Matrix.mulVec T b + t)) := by
  have hQ2 : Q' = Q.map (affineMap T t) := by
    apply List.ext_getElem
    · simpa using hlen'
    · intro i h1 h2
      rw [List.getElem_map]
      exact hQ i h1 (by simpa using h2)
  have hdet := det3_ne_zero_of_nondegenerate P hP
  rw [estimate_eq P Q hlen] at hest
  injection hest with hest
  have ha : ∀ j : Fin 2,
      Matrix.mulVec (inv (Q_set_to_Q_matrix_tilde P)) (rhs j P Q) = augment A b j := by
    intro j
    funext r
    exact congrFun (congrFun hest j) r
  rw [hQ2, estimate_eq P _ (by simpa using hlen)]
  congr 1
  ext j r
  simp only [Matrix.of_apply]
  rw [rhs_map_affineMap T t j P Q hlen, Matrix.mulVec_add, Matrix.mulVec_add,
    Matrix.mulVec_smul, Matrix.mulVec_smul, Matrix.mulVec_smul, Matrix.mulVec_mulVec,
    inv_mul_self _ hdet, Matrix.one_mulVec, ha 0, ha 1]
  fin_cases j <;> fin_cases r <;>
    simp [augment, Matrix.mul_apply, Matrix.mulVec, Matrix.dotProduct, Fin.sum_univ_two]

theorem estimate_target_equivariant_witness :
    estimate ([⟨0, 0⟩, ⟨1, 0⟩, ⟨0, 1⟩] : List (Point2D ℚ)) [⟨7, 6⟩, ⟨4, 7⟩, ⟨3, 8⟩]
      = .ok (augment ((!![0, -1; 1, 0] : Mat ℚ 2 2) * !![1, 2; 3, 4])
          (Matrix.mulVec (!![0, -1; 1, 0] : Mat ℚ 2 2) ![5, 6] + ![13, 1])) :=
  estimate_target_equivariant [⟨0, 0⟩, ⟨1, 0⟩, ⟨0, 1⟩] [⟨5, 6⟩, ⟨6, 9⟩, ⟨7, 10⟩]
    [⟨7, 6⟩, ⟨4, 7⟩, ⟨3, 8⟩] !![0, -1; 1, 0] ![13, 1] !![1, 2; 3, 4] ![5, 6]
    (by decide) nondegenerate_triangle (by decide)
    (by
      intro i h1 h2
      have h3 : i < 3 := by simpa using h1
      interval_cases i <;> simp [affineMap] <;> norm_num)
    (by
      have h := estimate_affine_data ([⟨0, 0⟩, ⟨1, 0⟩, ⟨0, 1⟩] : List (Point2D ℚ))
        nondegenerate_triangle !![1, 2; 3, 4] ![5, 6]
      have m : List.map (affineMap (!![1, 2; 3, 4] : Mat ℚ 2 2) ![5, 6])
          [⟨0, 0⟩, ⟨1, 0⟩, ⟨0, 1⟩] = [⟨5, 6⟩, ⟨6, 9⟩, ⟨7, 10⟩] := by
        simp [affineMap]
        norm_num
      rw [m] at h
      exact h)

end LeastSquare2DAffineTransformationEstimator
